import Mathlib

/-!
# Static-member composition (`src/index.js`)

A shallow embedding of the `compose` utility and of the fragment of the
JavaScript object model it relies on: ordinary objects living in a heap, each
with a callable flag, a prototype link, an extensibility flag and an
insertion-ordered table of own property descriptors.

Scope of the object model: ordinary objects and ordinary function objects.
Proxies (whose reflective traps run arbitrary code) are outside the model, and
numbers are integers, so `SameValue` is structural equality.
-/

namespace Compose

/-! ## Data model -/

/-- Property keys: string-named or symbol-named. -/
inductive Key
  | str (name : String)
  | sym (id : Nat)
  deriving DecidableEq, Repr

/-- JavaScript values. Objects (functions included) are references into the heap. -/
inductive Value
  | undefined
  | null
  | bool (b : Bool)
  | num (n : Int)
  | str (s : String)
  | sym (id : Nat)
  | ref (addr : Nat)
  deriving DecidableEq, Repr

/-- Fully populated property descriptors, as `Object.getOwnPropertyDescriptor`
returns them: a data property or an accessor pair, with the attribute flags. -/
inductive Descriptor
  | data (value : Value) (writable enumerable configurable : Bool)
  | accessor (get set : Value) (enumerable configurable : Bool)
  deriving DecidableEq, Repr

/-- Descriptor attribute `[[Configurable]]`. -/
def Descriptor.isConfigurable : Descriptor → Bool
  | .data _ _ _ c => c
  | .accessor _ _ _ c => c

/-- Descriptor attribute `[[Enumerable]]`. -/
def Descriptor.isEnumerable : Descriptor → Bool
  | .data _ _ e _ => e
  | .accessor _ _ e _ => e

/-- An ordinary object: `callable` says whether `typeof` reports a function,
`proto` is the `[[Prototype]]` slot, `props` the own properties in creation
order. -/
structure Obj where
  callable : Bool
  proto : Value
  extensible : Bool
  props : List (Key × Descriptor)
  deriving DecidableEq, Repr

/-- The heap: an object's address is its index. -/
abbrev Heap := List Obj

/-- Machine state: the heap and the lines written by `console.warn`. -/
structure State where
  heap : Heap
  warnings : List String
  deriving DecidableEq, Repr

/-- Exceptions a builtin can throw. -/
inductive JsError
  | typeError
  deriving DecidableEq, Repr

/-! ## Property tables -/

/-- Own-property lookup in a property table. -/
def getProp : List (Key × Descriptor) → Key → Option Descriptor
  | [], _ => none
  | (k, d) :: ps, key => if k = key then some d else getProp ps key

/-- Create or replace the property `key`; a new property goes last. -/
def setProp : List (Key × Descriptor) → Key → Descriptor → List (Key × Descriptor)
  | [], key, d => [(key, d)]
  | (k, d0) :: ps, key, d =>
    if k = key then (key, d) :: ps else (k, d0) :: setProp ps key d

/-- Predicate selecting string-named keys. -/
def Key.isString : Key → Bool
  | .str _ => true
  | .sym _ => false

/-! ## Builtins -/

/-- The `typeof` operator. A reference that points at nothing is reported as
`"undefined"`. -/
def typeOf (h : Heap) : Value → String
  | .undefined => "undefined"
  | .null => "object"
  | .bool _ => "boolean"
  | .num _ => "number"
  | .str _ => "string"
  | .sym _ => "symbol"
  | .ref a =>
    match h[a]? with
    | some o => if o.callable then "function" else "object"
    | none => "undefined"

/-- Truthiness (`ToBoolean`). -/
def toBoolean : Value → Bool
  | .undefined => false
  | .null => false
  | .bool b => b
  | .num n => n != 0
  | .str s => s != ""
  | .sym _ => true
  | .ref _ => true

/-- The object behind a value, for the reflective builtins of `Object`.
`undefined` and `null` make them throw a `TypeError`, as in the language. The
boxing of the other primitives is not modelled and is reported as the same
error: `composeStatics` reaches these builtins only behind its `typeof` guard,
on function objects. -/
def toObject (h : Heap) : Value → Except JsError Obj
  | .ref a =>
    match h[a]? with
    | some o => .ok o
    | none => .error .typeError
  | _ => .error .typeError

/-- Builtin `Object.getOwnPropertyNames`: the string-named own keys, in
creation order (the language lists integer-like names first; the key sets and
descriptors the program computes do not depend on that order). -/
def getOwnPropertyNames (h : Heap) (object : Value) : Except JsError (List Key) :=
  match toObject h object with
  | .ok o => .ok ((o.props.map Prod.fst).filter Key.isString)
  | .error e => .error e

/-- Builtin `Object.getOwnPropertySymbols`: the symbol-named own keys. -/
def getOwnPropertySymbols (h : Heap) (object : Value) : Except JsError (List Key) :=
  match toObject h object with
  | .ok o => .ok ((o.props.map Prod.fst).filter (fun k => !k.isString))
  | .error e => .error e

/-- Builtin `Object.getOwnPropertyDescriptor`; `none` is `undefined`. -/
def getOwnPropertyDescriptor (h : Heap) (object : Value) (key : Key) :
    Except JsError (Option Descriptor) :=
  match toObject h object with
  | .ok o => .ok (getProp o.props key)
  | .error e => .error e

/-- Builtin `Object.getPrototypeOf`. -/
def getPrototypeOf (h : Heap) (object : Value) : Except JsError Value :=
  match toObject h object with
  | .ok o => .ok o.proto
  | .error e => .error e

/-- Builtin `Object.isExtensible`; `false` for what is not an object. -/
def isExtensible (h : Heap) : Value → Bool
  | .ref a =>
    match h[a]? with
    | some o => o.extensible
    | none => false
  | _ => false

/-- The checks `ValidateAndApplyPropertyDescriptor` makes when the property
exists already: a configurable property accepts any redefinition; one that is
not configurable keeps its flags and its kind, an accessor keeps its functions,
and a read-only data property keeps its value. -/
def redefinitionAllowed (current desc : Descriptor) : Bool :=
  if current.isConfigurable then true
  else if desc.isConfigurable then false
  else if desc.isEnumerable != current.isEnumerable then false
  else
    match current, desc with
    | .accessor g s _ _, .accessor g1 s1 _ _ => g1 == g && s1 == s
    | .data v w _ _, .data v1 w1 _ _ => w || (!w1 && v1 == v)
    | _, _ => false

/-- Abstract operation `ValidateAndApplyPropertyDescriptor` for a fully
populated descriptor; `none` is the result `false`. -/
def validateAndApply (o : Obj) (key : Key) (desc : Descriptor) : Option Obj :=
  match getProp o.props key with
  | none =>
    if o.extensible then some { o with props := setProp o.props key desc } else none
  | some current =>
    if redefinitionAllowed current desc then
      some { o with props := setProp o.props key desc }
    else none

/-- Builtin `Object.defineProperty` on the heap. It throws a `TypeError` when
the receiver is not an object, when the descriptor argument is `undefined`,
and when the definition is rejected. -/
def defineProperty (h : Heap) (receiver : Value) (key : Key)
    (descriptor : Option Descriptor) : Except JsError Heap :=
  match receiver with
  | .ref a =>
    match h[a]? with
    | none => .error .typeError
    | some o =>
      match descriptor with
      | none => .error .typeError
      | some desc =>
        match validateAndApply o key desc with
        | some o1 => .ok (h.set a o1)
        | none => .error .typeError
  | _ => .error .typeError

/-- Builtin `console.warn`: records the line. -/
def consoleWarn (st : State) (msg : String) : State :=
  { st with warnings := st.warnings ++ [msg] }

/-- Insertion-ordered `new Set(iterable)`: the first occurrence of each element
is kept. -/
def mkSet : List Key → List Key
  | [] => []
  | x :: xs => x :: (mkSet xs).filter (fun y => y != x)

/-! ## The program -/

/-- The name `objectPrototype` destructured from `Object` at `src/index.js`
lines 10-17. `Object` has no property of that name, own or inherited, so the
binding holds `undefined`. -/
def objectPrototype : Value := .undefined

/-- Function `addProperty` (`src/index.js` lines 19-25): read the provider's
descriptor, then define it on the receiver inside `try`/`catch`. -/
def addProperty (st : State) (receiver provider : Value) (key : Key) :
    Except JsError State :=
  match getOwnPropertyDescriptor st.heap provider key with
  | .error e => .error e
  | .ok descriptor =>
    match defineProperty st.heap receiver key descriptor with
    | .ok h => .ok { st with heap := h }
    | .error _ => .ok st

/-- Function `getObjectKeys` (`src/index.js` lines 27-32). -/
def getObjectKeys (h : Heap) (object : Value) : Except JsError (List Key) :=
  match getOwnPropertyNames h object with
  | .error e => .error e
  | .ok names =>
    match getOwnPropertySymbols h object with
    | .error e => .error e
    | .ok symbols => .ok (names ++ symbols)

/-- The loop `composableKeys.forEach((key) => addProperty(...))`. -/
def forEachAddProperty (receiver provider : Value) :
    List Key → State → Except JsError State
  | [], st => .ok st
  | key :: keys, st =>
    match addProperty st receiver provider key with
    | .error e => .error e
    | .ok st1 => forEachAddProperty receiver provider keys st1

/-- Function `composeStatics` (`src/index.js` lines 34-55). The recursion on the
source's prototype is bounded by `fuel`; `none` means the fuel ran out. -/
def composeStatics : Nat → State → Value → Value → Option (Except JsError (State × Value))
  | 0, _, _, _ => none
  | fuel + 1, st, targetClass, sourceClass =>
    if typeOf st.heap targetClass ≠ "function" ∨ typeOf st.heap sourceClass ≠ "function" then
      some (.ok (consoleWarn st "compose requires functions as arguments", targetClass))
    else
      let inherited : Option (Except JsError State) :=
        if toBoolean objectPrototype then
          match getPrototypeOf st.heap sourceClass with
          | .error e => some (.error e)
          | .ok inheritedClass =>
            if toBoolean inheritedClass ∧ inheritedClass ≠ objectPrototype then
              match composeStatics fuel st targetClass inheritedClass with
              | none => none
              | some (.error e) => some (.error e)
              | some (.ok (st1, _)) => some (.ok st1)
            else some (.ok st)
        else some (.ok st)
      match inherited with
      | none => none
      | some (.error e) => some (.error e)
      | some (.ok st1) =>
        match getObjectKeys st1.heap targetClass with
        | .error e => some (.error e)
        | .ok targetKeyList =>
          let targetKeys := mkSet targetKeyList
          match getObjectKeys st1.heap sourceClass with
          | .error e => some (.error e)
          | .ok sourceKeyList =>
            let composeableKeys := mkSet sourceKeyList
            let composableKeys := mkSet (composeableKeys.filter (fun key => !targetKeys.contains key))
            match forEachAddProperty targetClass sourceClass composableKeys st1 with
            | .error e => some (.error e)
            | .ok st2 => some (.ok (st2, targetClass))

/-- The exported function (`src/index.js` lines 58-64):
`sourceClasses.reduceRight(composeStatics, targetClass)`. -/
def compose (fuel : Nat) (sourceClasses : List Value) (st : State) (targetClass : Value) :
    Option (Except JsError (State × Value)) :=
  sourceClasses.foldr
    (fun sourceClass acc =>
      match acc with
      | none => none
      | some (.error e) => some (.error e)
      | some (.ok (st1, composedClass)) => composeStatics fuel st1 composedClass sourceClass)
    (some (.ok (st, targetClass)))

/-! ## Object-level description of a merge

The effect of the program on the receiver, written as pure functions on
objects. The refinement lemmas below connect them to `composeStatics` and
`compose`. -/

/-- Own keys of an object in the order `getObjectKeys` lists them. -/
def Obj.keys (o : Obj) : List Key :=
  (o.props.map Prod.fst).filter Key.isString ++
    (o.props.map Prod.fst).filter (fun k => !k.isString)

/-- The keys `composeStatics` hands to `addProperty`. -/
def composableKeysOf (ot os : Obj) : List Key :=
  mkSet ((mkSet os.keys).filter (fun key => !(mkSet ot.keys).contains key))

/-- Effect of one `addProperty` call on the receiver object. -/
def applyKey (os ot : Obj) (key : Key) : Obj :=
  match getProp os.props key with
  | some d => (validateAndApply ot key d).getD ot
  | none => ot

/-- Effect of the `forEach` loop on the receiver object. -/
def addProps (os : Obj) (ks : List Key) (ot : Obj) : Obj :=
  ks.foldl (applyKey os) ot

/-- Effect of one pairwise merge of two function objects on the receiver. -/
def mergeInto (ot os : Obj) : Obj :=
  addProps os (composableKeysOf ot os) ot

/-- Effect of `composeStatics` on the receiver stored at address `t`, the
source being looked up in the heap `h`. -/
def mergeStep (h : Heap) (t : Nat) (ot : Obj) : Value → Obj
  | .ref s =>
    if s = t then ot
    else
      match h[s]? with
      | some os => if os.callable then mergeInto ot os else ot
      | none => ot
  | _ => ot

/-- Effect of `compose` on the receiver stored at address `t`. -/
def mergeAll (h : Heap) (t : Nat) (sources : List Value) (ot : Obj) : Obj :=
  sources.foldr (fun src o => mergeStep h t o src) ot

/-! ## A concrete heap

Classes as the test-suite declares them (`src/test/index.test.js`), with the
own members every class carries (`length`, `name`, `prototype`). -/

/-- Descriptor of a static method: writable, not enumerable, configurable. -/
def method (a : Nat) : Descriptor := .data (.ref a) true false true

/-- Descriptor of a static getter without setter. -/
def getter (a : Nat) : Descriptor := .accessor (.ref a) .undefined false true

/-- Descriptor of the `length` and `name` of a function. -/
def hidden (v : Value) : Descriptor := .data v false false true

/-- A class object: `parent` is its `[[Prototype]]`, `protoAddr` the address
of its `prototype` object, `statics` its static members. -/
def classObj (parent : Value) (name : String) (protoAddr : Nat)
    (statics : List (Key × Descriptor)) : Obj :=
  { callable := true, proto := parent, extensible := true,
    props := [(.str "length", hidden (.num 0)), (.str "name", hidden (.str name)),
      (.str "prototype", .data (.ref protoAddr) false false false)] ++ statics }

/-- The function object of a method or getter. -/
def functionObj (name : String) : Obj :=
  { callable := true, proto := .ref 1, extensible := true,
    props := [(.str "length", hidden (.num 0)), (.str "name", hidden (.str name))] }

/-- The `prototype` object of a class. -/
def prototypeObj (parent : Value) (classAddr : Nat) : Obj :=
  { callable := false, proto := parent, extensible := true,
    props := [(.str "constructor", .data (.ref classAddr) true false true)] }

/-- The heap of the examples. Addresses: 0 `Object.prototype`, 1
`Function.prototype` (own members of the two intrinsics left out), 2 `Target`,
5 `Parent`, 9 `Source extends Parent`, 15 `FirstSource`, 19 `SecondSource`,
23 `ThirdSource`, 26 an arrow function whose `length` and `name` were deleted
and that was given `targetOwn`, 27 a plain object; the other addresses hold
the `prototype` objects and the functions of the members. -/
def world : Heap := [
  { callable := false, proto := .null, extensible := true, props := [] },
  { callable := true, proto := .ref 0, extensible := true, props := [] },
  classObj (.ref 1) "Target" 3 [(.str "originalMethod", method 4)],
  prototypeObj (.ref 0) 2,
  functionObj "originalMethod",
  classObj (.ref 1) "Parent" 6 [(.str "parentOnly", method 7), (.str "shared", method 8)],
  prototypeObj (.ref 0) 5,
  functionObj "parentOnly",
  functionObj "shared",
  classObj (.ref 5) "Source" 10
    [(.sym 1, getter 11), (.str "sourceMethod", method 12),
      (.str "originalMethod", method 13), (.str "shared", method 14)],
  prototypeObj (.ref 6) 9,
  functionObj "get [isComposed]",
  functionObj "sourceMethod",
  functionObj "originalMethod",
  functionObj "shared",
  classObj (.ref 1) "FirstSource" 16
    [(.str "firstSourceMethod", method 17), (.str "overwritableMethod", method 18)],
  prototypeObj (.ref 0) 15,
  functionObj "firstSourceMethod",
  functionObj "overwritableMethod",
  classObj (.ref 1) "SecondSource" 20
    [(.str "overwritableMethod", method 21), (.str "secondSourceMethod", method 22)],
  prototypeObj (.ref 0) 19,
  functionObj "overwritableMethod",
  functionObj "secondSourceMethod",
  classObj (.ref 1) "ThirdSource" 24 [(.str "overwritableMethod", method 25)],
  prototypeObj (.ref 0) 23,
  functionObj "overwritableMethod",
  { callable := true, proto := .ref 1, extensible := true,
    props := [(.str "targetOwn", .data (.num 1) true true true)] },
  { callable := false, proto := .ref 0, extensible := true,
    props := [(.str "overwritableMethod", method 4)] }
]

/-- The example heap with nothing logged yet. -/
def world0 : State := ⟨world, []⟩

/-! ## Precedence among the sources -/

/-- The descriptor a source offers at a key to the receiver stored at address
`t`: the own descriptor of a function source other than the receiver. -/
def offered (h : Heap) (t : Nat) (src : Value) (k : Key) : Option Descriptor :=
  match src with
  | .ref s =>
    if s = t then none
    else
      match h[s]? with
      | some os => if os.callable then getProp os.props k else none
      | none => none
  | _ => none

/-- The descriptor offered by the last source of the list that offers one. -/
def lastOffered (h : Heap) (t : Nat) : List Value → Key → Option Descriptor
  | [], _ => none
  | src :: rest, k =>
    match lastOffered h t rest k with
    | some d => some d
    | none => offered h t src k

/-- One source under the reading "last compose supersedes first": each own
member of the source overwrites what is in `acc` at its key, unless the target
owned the key originally. -/
def supersedeOne (original members acc : List (Key × Descriptor)) :
    List (Key × Descriptor) :=
  (members.map Prod.fst).foldl
    (fun acc k =>
      if getProp original k = none then
        match getProp members k with
        | some d => setProp acc k d
        | none => acc
      else acc)
    acc

/-- The member map of the target under the reading "last compose supersedes
first" of the spec: the sources are visited left to right, each source's own
member overwrites any member placed by an earlier source, and a member the
target owned originally is never overwritten. -/
def lastSupersedesFirst (h : Heap) (original : List (Key × Descriptor))
    (sources : List Value) : List (Key × Descriptor) :=
  sources.foldl
    (fun acc src =>
      match toObject h src with
      | .ok os => supersedeOne original os.props acc
      | .error _ => acc)
    original

/-- The own keys of a value as `getObjectKeys` lists them; no keys when the
call throws. -/
def ownKeys (h : Heap) (v : Value) : List Key :=
  match getObjectKeys h v with
  | .ok ks => ks
  | .error _ => []

/-! ## A second concrete heap -/

/-- The example heap extended by two objects. Address 28: a function with the
own members of `Source` (address 9), descriptors included, whose parent is
`Function.prototype` instead of `Parent`. Address 29: a function that owns
`frozenOwn` and was made non-extensible with `Object.preventExtensions`. -/
def world2 : Heap :=
  world ++ [
    classObj (.ref 1) "Source" 10
      [(.sym 1, getter 11), (.str "sourceMethod", method 12),
        (.str "originalMethod", method 13), (.str "shared", method 14)],
    { callable := true, proto := .ref 1, extensible := false,
      props := [(.str "frozenOwn", .data (.num 1) true true true)] }
  ]

/-- The extended example heap with nothing logged yet. -/
def world20 : State := ⟨world2, []⟩

/-! ## Calling a member

The language side of `this`: a call `recv.key()` runs the function found at
`key` with `this` bound to `recv`, and an assignment `this.prop = value` is the
`[[Set]]` operation of ordinary objects with `this` as receiver. Function
bodies are the single statement `this.prop = value`, as in
`static setComposedProps() { this.composedProp = 'abc' }` of
`src/test/index.test.js`; class bodies are strict code, so a rejected
assignment throws. -/

/-- The statement `this.prop = value`. -/
structure Assignment where
  prop : Key
  value : Value
  deriving DecidableEq, Repr

/-- The bodies of the function objects, by address; `none` for a body that
writes nothing. -/
abbrev Code := Nat → Option Assignment

/-- The body a call of `f` runs; calling what is not a function throws a
`TypeError`. -/
def bodyOf (code : Code) (h : Heap) (f : Value) : Except JsError (Option Assignment) :=
  if typeOf h f ≠ "function" then .error .typeError
  else
    match f with
    | .ref a => .ok (code a)
    | _ => .error .typeError

/-- The end of `OrdinarySetWithOwnDescriptor` for a writable data property
found (or defaulted) on the chain: the value goes to the receiver, by updating
its own writable data property or by creating a data property. -/
def setOnReceiver (h : Heap) (receiver : Value) (p : Key) (v : Value) : Except JsError Heap :=
  match getOwnPropertyDescriptor h receiver p with
  | .error e => .error e
  | .ok (some (.accessor _ _ _ _)) => .error .typeError
  | .ok (some (.data _ w e c)) =>
    if w then defineProperty h receiver p (some (.data v w e c)) else .error .typeError
  | .ok none => defineProperty h receiver p (some (.data v true true true))

/-- Operation `o.[[Set]](p, v, receiver)` of ordinary objects in strict code:
the property is searched from `o` up the prototype chain; a setter found is
called with `this = receiver`; `none` means the fuel ran out. -/
def ordinarySet (code : Code) :
    Nat → Heap → Value → Key → Value → Value → Option (Except JsError Heap)
  | 0, _, _, _, _, _ => none
  | fuel + 1, h, o, p, v, receiver =>
    match toObject h o with
    | .error e => some (.error e)
    | .ok obj =>
      match getProp obj.props p with
      | none =>
        match obj.proto with
        | .null => some (setOnReceiver h receiver p v)
        | parent => ordinarySet code fuel h parent p v receiver
      | some (.data _ w _ _) =>
        if w then some (setOnReceiver h receiver p v) else some (.error .typeError)
      | some (.accessor _ setter _ _) =>
        match bodyOf code h setter with
        | .error e => some (.error e)
        | .ok none => some (.ok h)
        | .ok (some body) => ordinarySet code fuel h receiver body.prop body.value receiver

/-- A call of `f` with `this = thisArg`. -/
def callFunction (code : Code) (fuel : Nat) (h : Heap) (f thisArg : Value) :
    Option (Except JsError Heap) :=
  match bodyOf code h f with
  | .error e => some (.error e)
  | .ok none => some (.ok h)
  | .ok (some body) => ordinarySet code fuel h thisArg body.prop body.value thisArg

/-- The property `key` as `o.[[Get]]` finds it, own or inherited; the outer
`none` means the fuel ran out. -/
def lookupMember : Nat → Heap → Value → Key → Option (Option Descriptor)
  | 0, _, _, _ => none
  | fuel + 1, h, o, key =>
    match toObject h o with
    | .error _ => some none
    | .ok obj =>
      match getProp obj.props key with
      | some d => some (some d)
      | none => lookupMember fuel h obj.proto key

/-- Invocation of a member through `recv`: the call `recv.key()` when the
member is a data property, the read `recv.key` when it is a getter. A missing
member makes the call throw. -/
def invokeMember (code : Code) (fuel : Nat) (h : Heap) (recv : Value) (key : Key) :
    Option (Except JsError Heap) :=
  match lookupMember fuel h recv key with
  | none => none
  | some none => some (.error .typeError)
  | some (some (.data f _ _ _)) => callFunction code fuel h f recv
  | some (some (.accessor g _ _ _)) =>
    if g = .undefined then some (.ok h) else callFunction code fuel h g recv

/-- The search `[[Set]]` makes for `p` from `o` up the prototype chain, within
`n` objects, ends where the value goes to the receiver: at a writable data
property, or at the end of the chain with nothing found. It does not when it
meets a setter or a read-only property first. -/
def fallsToReceiver : Nat → Heap → Value → Key → Bool
  | 0, _, _, _ => false
  | n + 1, h, o, p =>
    match toObject h o with
    | .error _ => false
    | .ok obj =>
      match getProp obj.props p with
      | some (.data _ w _ _) => w
      | some (.accessor _ _ _ _) => false
      | none =>
        match obj.proto with
        | .null => true
        | parent => fallsToReceiver n h parent p

/-- The function a member runs when it is invoked: the value of a data
property, the getter of an accessor. -/
def Descriptor.invoked : Descriptor → Value
  | .data f _ _ _ => f
  | .accessor g _ _ _ => g

/-- The second example heap extended by the class of the test-suite that
declares `setComposedProps`, with a getter running the same function, a static
field `counter = 0` and a method `resetCounter`. Addresses: 30 the class, 31
its `prototype` object, 32 the function `setComposedProps`, 33 the function
`resetCounter`. -/
def world3 : Heap :=
  world2 ++ [
    classObj (.ref 1) "Source" 31
      [(.str "setComposedProps", method 32), (.str "composedGetter", getter 32),
        (.str "counter", .data (.num 0) true true true), (.str "resetCounter", method 33)],
    prototypeObj (.ref 0) 30,
    functionObj "setComposedProps",
    functionObj "resetCounter"
  ]

/-- The third example heap with nothing logged yet. -/
def world30 : State := ⟨world3, []⟩

/-- The bodies of the third example heap: `setComposedProps` assigns
`this.composedProp = 'abc'`, `resetCounter` assigns `this.counter = 5`; the
other functions write nothing. -/
def testCode : Code :=
  fun a =>
    if a = 32 then some ⟨.str "composedProp", .str "abc"⟩
    else if a = 33 then some ⟨.str "counter", .num 5⟩
    else none

/-! ## Property tables: lemmas -/

theorem getProp_setProp (ps : List (Key × Descriptor)) (k k1 : Key) (d : Descriptor) :
    getProp (setProp ps k d) k1 = if k = k1 then some d else getProp ps k1 := by
  induction ps with
  | nil => simp [setProp, getProp]
  | cons p ps ih =>
    obtain ⟨k0, d0⟩ := p
    by_cases h0 : k0 = k
    · subst h0
      by_cases h1 : k0 = k1 <;> simp [setProp, getProp, h1]
    · by_cases h1 : k = k1
      · subst h1
        simp [setProp, getProp, h0, ih]
      · by_cases h2 : k0 = k1
        · subst h2
          simp [setProp, getProp, h0, h1]
        · simp [setProp, getProp, h0, h1, h2, ih]

theorem mem_map_fst_iff (ps : List (Key × Descriptor)) (k : Key) :
    k ∈ ps.map Prod.fst ↔ getProp ps k ≠ none := by
  induction ps with
  | nil => simp [getProp]
  | cons p ps ih =>
    obtain ⟨k0, d0⟩ := p
    by_cases h0 : k0 = k
    · simp [getProp, h0]
    · have h1 : ¬ k = k0 := fun e => h0 e.symm
      simp [getProp, h0, h1, ih]

theorem Obj.mem_keys (o : Obj) (k : Key) : k ∈ o.keys ↔ getProp o.props k ≠ none := by
  rw [← mem_map_fst_iff]
  unfold Obj.keys
  simp only [List.mem_append, List.mem_filter]
  constructor
  · rintro (h | h) <;> exact h.1
  · intro h
    cases hk : k.isString
    · right; simp [h, hk]
    · left; simp [h]

theorem mem_mkSet (xs : List Key) (k : Key) : k ∈ mkSet xs ↔ k ∈ xs := by
  induction xs with
  | nil => simp [mkSet]
  | cons x xs ih =>
    by_cases h : k = x
    · simp [mkSet, h]
    · simp [mkSet, h, List.mem_filter, ih]

theorem nodup_mkSet (xs : List Key) : (mkSet xs).Nodup := by
  induction xs with
  | nil => simp [mkSet]
  | cons x xs ih =>
    simp only [mkSet, List.nodup_cons, List.mem_filter]
    refine ⟨by simp, ih.filter _⟩

theorem mem_composableKeysOf (ot os : Obj) (k : Key) :
    k ∈ composableKeysOf ot os ↔ getProp os.props k ≠ none ∧ getProp ot.props k = none := by
  unfold composableKeysOf
  rw [mem_mkSet, List.mem_filter, mem_mkSet, Obj.mem_keys]
  simp [mem_mkSet, Obj.mem_keys]

theorem nodup_composableKeysOf (ot os : Obj) : (composableKeysOf ot os).Nodup :=
  nodup_mkSet _

/-! ## One merge, at the level of objects -/

theorem validateAndApply_some (o o1 : Obj) (k : Key) (d : Descriptor)
    (h : validateAndApply o k d = some o1) :
    o1 = { o with props := setProp o.props k d } := by
  unfold validateAndApply at h
  split at h
  · split at h
    · exact (Option.some.inj h).symm
    · exact absurd h (by simp)
  · split at h
    · exact (Option.some.inj h).symm
    · exact absurd h (by simp)

theorem validateAndApply_fresh (o : Obj) (k : Key) (d : Descriptor)
    (hk : getProp o.props k = none) :
    validateAndApply o k d =
      if o.extensible then some { o with props := setProp o.props k d } else none := by
  unfold validateAndApply
  rw [hk]

theorem applyKey_cases (os ot : Obj) (k : Key) :
    applyKey os ot k = ot ∨
      ∃ d, getProp os.props k = some d ∧
        validateAndApply ot k d = some (applyKey os ot k) ∧
        applyKey os ot k = { ot with props := setProp ot.props k d } := by
  unfold applyKey
  cases hs : getProp os.props k with
  | none => left; rfl
  | some d =>
    cases hv : validateAndApply ot k d with
    | none => left; simp [hv]
    | some o1 =>
      right
      refine ⟨d, rfl, ?_, ?_⟩
      · simp [hv]
      · simpa [hv] using validateAndApply_some ot o1 k d hv

theorem applyKey_callable (os ot : Obj) (k : Key) : (applyKey os ot k).callable = ot.callable := by
  rcases applyKey_cases os ot k with h | ⟨d, _, _, h⟩ <;> rw [h]

theorem applyKey_proto (os ot : Obj) (k : Key) : (applyKey os ot k).proto = ot.proto := by
  rcases applyKey_cases os ot k with h | ⟨d, _, _, h⟩ <;> rw [h]

theorem applyKey_extensible (os ot : Obj) (k : Key) :
    (applyKey os ot k).extensible = ot.extensible := by
  rcases applyKey_cases os ot k with h | ⟨d, _, _, h⟩ <;> rw [h]

theorem applyKey_getProp_ne (os ot : Obj) (k k1 : Key) (hne : k ≠ k1) :
    getProp (applyKey os ot k).props k1 = getProp ot.props k1 := by
  rcases applyKey_cases os ot k with h | ⟨d, _, _, h⟩
  · rw [h]
  · rw [h]
    simp [getProp_setProp, hne]

theorem applyKey_getProp_self (os ot : Obj) (k : Key) (hk : getProp ot.props k = none) :
    getProp (applyKey os ot k).props k =
      if ot.extensible then getProp os.props k else none := by
  unfold applyKey
  cases hs : getProp os.props k with
  | none => simp [hk]
  | some d =>
    simp only [validateAndApply_fresh ot k d hk]
    cases he : ot.extensible <;> simp [hk, getProp_setProp]

theorem applyKey_of_not_extensible (os ot : Obj) (k : Key) (hk : getProp ot.props k = none)
    (he : ot.extensible = false) : applyKey os ot k = ot := by
  unfold applyKey
  cases hs : getProp os.props k with
  | none => rfl
  | some d => simp [validateAndApply_fresh ot k d hk, he]

theorem addProps_callable (os : Obj) (ks : List Key) (ot : Obj) :
    (addProps os ks ot).callable = ot.callable := by
  induction ks generalizing ot with
  | nil => rfl
  | cons k ks ih => simp only [addProps, List.foldl_cons] at ih ⊢; rw [ih, applyKey_callable]

theorem addProps_proto (os : Obj) (ks : List Key) (ot : Obj) :
    (addProps os ks ot).proto = ot.proto := by
  induction ks generalizing ot with
  | nil => rfl
  | cons k ks ih => simp only [addProps, List.foldl_cons] at ih ⊢; rw [ih, applyKey_proto]

theorem addProps_extensible (os : Obj) (ks : List Key) (ot : Obj) :
    (addProps os ks ot).extensible = ot.extensible := by
  induction ks generalizing ot with
  | nil => rfl
  | cons k ks ih => simp only [addProps, List.foldl_cons] at ih ⊢; rw [ih, applyKey_extensible]

theorem addProps_getProp (os : Obj) (ks : List Key) (ot : Obj) (hnd : ks.Nodup)
    (hno : ∀ k ∈ ks, getProp ot.props k = none) (k1 : Key) :
    getProp (addProps os ks ot).props k1 =
      if k1 ∈ ks then (if ot.extensible then getProp os.props k1 else none)
      else getProp ot.props k1 := by
  induction ks generalizing ot with
  | nil => simp [addProps]
  | cons k ks ih =>
    have hk : getProp ot.props k = none := hno k (List.mem_cons_self _ _)
    have hnd1 : ks.Nodup := (List.nodup_cons.mp hnd).2
    have hkn : k ∉ ks := (List.nodup_cons.mp hnd).1
    have hno1 : ∀ k2 ∈ ks, getProp (applyKey os ot k).props k2 = none := by
      intro k2 hk2
      have hne : k ≠ k2 := fun e => hkn (e ▸ hk2)
      rw [applyKey_getProp_ne os ot k k2 hne]
      exact hno k2 (List.mem_cons_of_mem _ hk2)
    have step := ih (applyKey os ot k) hnd1 hno1
    simp only [addProps, List.foldl_cons] at step ⊢
    rw [step, applyKey_extensible]
    by_cases h1 : k1 = k
    · subst h1
      simp [hkn, applyKey_getProp_self os ot k1 hk]
    · have hne : k ≠ k1 := fun e => h1 e.symm
      simp [h1, applyKey_getProp_ne os ot k k1 hne]

theorem addProps_of_not_extensible (os : Obj) (ks : List Key) (ot : Obj)
    (hno : ∀ k ∈ ks, getProp ot.props k = none) (he : ot.extensible = false) :
    addProps os ks ot = ot := by
  induction ks with
  | nil => rfl
  | cons k ks ih =>
    simp only [addProps, List.foldl_cons] at ih ⊢
    rw [applyKey_of_not_extensible os ot k (hno k (List.mem_cons_self _ _)) he]
    exact ih (fun k2 hk2 => hno k2 (List.mem_cons_of_mem _ hk2))

theorem mergeInto_callable (ot os : Obj) : (mergeInto ot os).callable = ot.callable :=
  addProps_callable os _ ot

theorem mergeInto_proto (ot os : Obj) : (mergeInto ot os).proto = ot.proto :=
  addProps_proto os _ ot

theorem mergeInto_extensible (ot os : Obj) : (mergeInto ot os).extensible = ot.extensible :=
  addProps_extensible os _ ot

/-- The property table after one merge: what the receiver owned stays, and an
extensible receiver gains the source's descriptor at every other key. -/
theorem mergeInto_getProp (ot os : Obj) (k : Key) :
    getProp (mergeInto ot os).props k =
      match getProp ot.props k with
      | some d => some d
      | none => if ot.extensible then getProp os.props k else none := by
  unfold mergeInto
  rw [addProps_getProp os _ ot (nodup_composableKeysOf ot os)
    (fun k2 hk2 => ((mem_composableKeysOf ot os k2).mp hk2).2)]
  cases ht : getProp ot.props k with
  | some d => simp [mem_composableKeysOf, ht]
  | none =>
    cases hs : getProp os.props k with
    | none => simp [mem_composableKeysOf, ht, hs]
    | some d => simp [mem_composableKeysOf, ht, hs]

theorem mergeInto_of_not_extensible (ot os : Obj) (he : ot.extensible = false) :
    mergeInto ot os = ot :=
  addProps_of_not_extensible os _ ot
    (fun k2 hk2 => ((mem_composableKeysOf ot os k2).mp hk2).2) he

theorem mergeInto_of_keys (ot os : Obj)
    (hsub : ∀ k, getProp os.props k ≠ none → getProp ot.props k ≠ none) :
    mergeInto ot os = ot := by
  have hnil : composableKeysOf ot os = [] := by
    apply List.eq_nil_iff_forall_not_mem.mpr
    intro k hk
    obtain ⟨h1, h2⟩ := (mem_composableKeysOf ot os k).mp hk
    exact hsub k h1 h2
  unfold mergeInto
  rw [hnil]
  rfl

theorem mergeInto_self (o : Obj) : mergeInto o o = o :=
  mergeInto_of_keys o o (fun _ h => h)

/-! ## Refinement: the program against the object-level description -/

theorem typeOf_function_iff (h : Heap) (v : Value) :
    typeOf h v = "function" ↔ ∃ a o, v = .ref a ∧ h[a]? = some o ∧ o.callable = true := by
  cases v with
  | ref a =>
    cases ha : h[a]? with
    | none => simp [typeOf, ha]
    | some o => cases hc : o.callable <;> simp [typeOf, ha, hc]
  | _ => simp [typeOf]

theorem typeOf_ref (h : Heap) (a : Nat) (o : Obj) (ha : h[a]? = some o) :
    typeOf h (.ref a) = "function" ↔ o.callable = true := by
  rw [typeOf_function_iff]
  constructor
  · rintro ⟨a1, o1, he, h1, h2⟩
    cases he
    rw [ha] at h1
    cases h1
    exact h2
  · intro hc
    exact ⟨a, o, rfl, ha, hc⟩

theorem set_self_of_getElem? (h : Heap) (t : Nat) (o : Obj) (ht : h[t]? = some o) :
    h.set t o = h := by
  induction h generalizing t with
  | nil => simp
  | cons x xs ih =>
    cases t with
    | zero => simp at ht; simp [ht]
    | succ n => simp at ht; simp [ih n ht]

theorem getElem?_set_same (h : Heap) (t : Nat) (o o1 : Obj) (ht : h[t]? = some o) :
    (h.set t o1)[t]? = some o1 := by
  obtain ⟨hlt, _⟩ := List.getElem?_eq_some.mp ht
  exact List.getElem?_set_self hlt

theorem getObjectKeys_ref (h : Heap) (a : Nat) (o : Obj) (ha : h[a]? = some o) :
    getObjectKeys h (.ref a) = .ok o.keys := by
  simp [getObjectKeys, getOwnPropertyNames, getOwnPropertySymbols, toObject, ha, Obj.keys]

theorem getOwnPropertyDescriptor_ref (h : Heap) (a : Nat) (o : Obj) (ha : h[a]? = some o)
    (k : Key) : getOwnPropertyDescriptor h (.ref a) k = .ok (getProp o.props k) := by
  simp [getOwnPropertyDescriptor, toObject, ha]

theorem getOwnPropertyDescriptor_ok (h : Heap) (v : Value) (k : Key) (r : Option Descriptor)
    (hr : getOwnPropertyDescriptor h v k = .ok r) :
    ∃ a o, v = .ref a ∧ h[a]? = some o ∧ getProp o.props k = r := by
  cases v with
  | ref a =>
    cases ha : h[a]? with
    | none => simp [getOwnPropertyDescriptor, toObject, ha] at hr
    | some o =>
      rw [getOwnPropertyDescriptor_ref h a o ha] at hr
      exact ⟨a, o, rfl, ha, Except.ok.inj hr⟩
  | _ => simp [getOwnPropertyDescriptor, toObject] at hr

theorem addProperty_ref (h : Heap) (w : List String) (t s : Nat) (ot os : Obj)
    (ht : h[t]? = some ot) (hs : h[s]? = some os) (k : Key) :
    addProperty ⟨h, w⟩ (.ref t) (.ref s) k = .ok ⟨h.set t (applyKey os ot k), w⟩ := by
  unfold addProperty
  simp only [getOwnPropertyDescriptor_ref h s os hs, defineProperty, ht]
  unfold applyKey
  cases hd : getProp os.props k with
  | none => simp [set_self_of_getElem? h t ot ht]
  | some d =>
    simp only
    cases hv : validateAndApply ot k d with
    | none => simp [set_self_of_getElem? h t ot ht]
    | some o1 => simp

theorem forEachAddProperty_ref (t s : Nat) (hne : s ≠ t) (os : Obj) (ks : List Key)
    (h : Heap) (w : List String) (ot : Obj) (ht : h[t]? = some ot) (hs : h[s]? = some os) :
    forEachAddProperty (.ref t) (.ref s) ks ⟨h, w⟩ = .ok ⟨h.set t (addProps os ks ot), w⟩ := by
  induction ks generalizing h ot with
  | nil => simp [forEachAddProperty, addProps, set_self_of_getElem? h t ot ht]
  | cons k ks ih =>
    unfold forEachAddProperty
    rw [addProperty_ref h w t s ot os ht hs k]
    simp only
    have ht1 : (h.set t (applyKey os ot k))[t]? = some (applyKey os ot k) :=
      getElem?_set_same h t ot _ ht
    have hs1 : (h.set t (applyKey os ot k))[s]? = some os := by
      rw [List.getElem?_set_ne (fun e => hne e.symm)]
      exact hs
    rw [ih (h.set t (applyKey os ot k)) (applyKey os ot k) ht1 hs1, List.set_set]
    rfl

theorem mergeStep_callable (h : Heap) (t : Nat) (ot : Obj) (src : Value) :
    (mergeStep h t ot src).callable = ot.callable := by
  unfold mergeStep
  split
  · split
    · rfl
    · split
      · split
        · exact mergeInto_callable _ _
        · rfl
      · rfl
  · rfl

theorem mergeStep_extensible (h : Heap) (t : Nat) (ot : Obj) (src : Value) :
    (mergeStep h t ot src).extensible = ot.extensible := by
  unfold mergeStep
  split
  · split
    · rfl
    · split
      · split
        · exact mergeInto_extensible _ _
        · rfl
      · rfl
  · rfl

theorem mergeStep_proto (h : Heap) (t : Nat) (ot : Obj) (src : Value) :
    (mergeStep h t ot src).proto = ot.proto := by
  unfold mergeStep
  split
  · split
    · rfl
    · split
      · split
        · exact mergeInto_proto _ _
        · rfl
      · rfl
  · rfl

theorem mergeStep_set (h : Heap) (t : Nat) (o ot : Obj) (src : Value) :
    mergeStep (h.set t o) t ot src = mergeStep h t ot src := by
  cases src with
  | ref s =>
    by_cases hst : s = t
    · simp [mergeStep, hst]
    · have hts : t ≠ s := fun e => hst e.symm
      simp [mergeStep, hst, List.getElem?_set_ne hts]
  | _ => rfl

theorem mergeStep_of_not_function (h : Heap) (t : Nat) (ot : Obj) (src : Value)
    (hsrc : typeOf h src ≠ "function") : mergeStep h t ot src = ot := by
  cases src with
  | ref s =>
    by_cases hst : s = t
    · simp [mergeStep, hst]
    · cases hs : h[s]? with
      | none => simp [mergeStep, hst, hs]
      | some os =>
        have hc : os.callable = false := by
          cases hcc : os.callable with
          | false => rfl
          | true => exact absurd ((typeOf_ref h s os hs).mpr hcc) hsrc
        simp [mergeStep, hst, hs, hc]
  | _ => rfl

/-- One pairwise merge into a function receiver: the call returns the receiver
and replaces the receiver's object by `mergeStep`. -/
theorem composeStatics_function_target (fuel : Nat) (h : Heap) (w : List String) (t : Nat)
    (ot : Obj) (ht : h[t]? = some ot) (hc : ot.callable = true) (src : Value) :
    ∃ w1, composeStatics (fuel + 1) ⟨h, w⟩ (.ref t) src =
      some (.ok (⟨h.set t (mergeStep h t ot src), w1⟩, .ref t)) := by
  have htf : typeOf h (.ref t) = "function" := (typeOf_ref h t ot ht).mpr hc
  by_cases hsrc : typeOf h src = "function"
  · obtain ⟨s, os, rfl, hs, hcs⟩ := (typeOf_function_iff h src).mp hsrc
    refine ⟨w, ?_⟩
    simp only [composeStatics, htf, hsrc, objectPrototype, toBoolean, ne_eq, not_true_eq_false,
      or_self, if_false, Bool.false_eq_true, getObjectKeys_ref h t ot ht,
      getObjectKeys_ref h s os hs]
    by_cases hst : s = t
    · subst hst
      rw [ht] at hs
      cases hs
      have hnil : composableKeysOf ot ot = [] := by
        apply List.eq_nil_iff_forall_not_mem.mpr
        intro k hk
        obtain ⟨h1, h2⟩ := (mem_composableKeysOf ot ot k).mp hk
        exact h1 h2
      unfold composableKeysOf at hnil
      rw [hnil]
      simp [forEachAddProperty, mergeStep, set_self_of_getElem? h s ot ht]
    · have hloop := forEachAddProperty_ref t s hst os (composableKeysOf ot os) h w ot ht hs
      unfold composableKeysOf at hloop
      rw [hloop]
      simp [mergeStep, hst, hs, hcs, mergeInto, composableKeysOf]
  · refine ⟨w ++ ["compose requires functions as arguments"], ?_⟩
    simp [composeStatics, hsrc, consoleWarn, mergeStep_of_not_function h t ot src hsrc,
      set_self_of_getElem? h t ot ht]

/-- A merge whose receiver is not a function only writes the warning. -/
theorem composeStatics_other_target (fuel : Nat) (st : State) (target src : Value)
    (hT : typeOf st.heap target ≠ "function") :
    composeStatics (fuel + 1) st target src =
      some (.ok (consoleWarn st "compose requires functions as arguments", target)) := by
  simp [composeStatics, hT]

theorem compose_cons (fuel : Nat) (src : Value) (rest : List Value) (st : State)
    (target : Value) :
    compose fuel (src :: rest) st target =
      match compose fuel rest st target with
      | none => none
      | some (.error e) => some (.error e)
      | some (.ok (st1, composedClass)) => composeStatics fuel st1 composedClass src := rfl

theorem mergeAll_cons (h : Heap) (t : Nat) (src : Value) (rest : List Value) (ot : Obj) :
    mergeAll h t (src :: rest) ot = mergeStep h t (mergeAll h t rest ot) src := rfl

theorem mergeAll_callable (h : Heap) (t : Nat) (sources : List Value) (ot : Obj) :
    (mergeAll h t sources ot).callable = ot.callable := by
  induction sources with
  | nil => rfl
  | cons src rest ih => rw [mergeAll_cons, mergeStep_callable, ih]

theorem mergeAll_extensible (h : Heap) (t : Nat) (sources : List Value) (ot : Obj) :
    (mergeAll h t sources ot).extensible = ot.extensible := by
  induction sources with
  | nil => rfl
  | cons src rest ih => rw [mergeAll_cons, mergeStep_extensible, ih]

theorem mergeAll_proto (h : Heap) (t : Nat) (sources : List Value) (ot : Obj) :
    (mergeAll h t sources ot).proto = ot.proto := by
  induction sources with
  | nil => rfl
  | cons src rest ih => rw [mergeAll_cons, mergeStep_proto, ih]

/-- The whole fold into a function target: the call returns the target and
replaces the target's object by `mergeAll`; no other address is written. -/
theorem compose_function_target (fuel : Nat) (h : Heap) (t : Nat) (ot : Obj)
    (ht : h[t]? = some ot) (hc : ot.callable = true) (sources : List Value) (w : List String) :
    ∃ w1, compose (fuel + 1) sources ⟨h, w⟩ (.ref t) =
      some (.ok (⟨h.set t (mergeAll h t sources ot), w1⟩, .ref t)) := by
  induction sources with
  | nil => exact ⟨w, by simp [compose, mergeAll, set_self_of_getElem? h t ot ht]⟩
  | cons src rest ih =>
    obtain ⟨w1, hrest⟩ := ih
    have ht1 : (h.set t (mergeAll h t rest ot))[t]? = some (mergeAll h t rest ot) :=
      getElem?_set_same h t ot _ ht
    have hc1 : (mergeAll h t rest ot).callable = true := by
      rw [mergeAll_callable]; exact hc
    obtain ⟨w2, hstep⟩ := composeStatics_function_target fuel
      (h.set t (mergeAll h t rest ot)) w1 t (mergeAll h t rest ot) ht1 hc1 src
    refine ⟨w2, ?_⟩
    rw [compose_cons, hrest]
    simp only
    rw [hstep, List.set_set, mergeStep_set, mergeAll_cons]

/-- The whole fold into a target that is not a function: the heap is left as
it was. -/
theorem compose_other_target (fuel : Nat) (st : State) (target : Value)
    (hT : typeOf st.heap target ≠ "function") (sources : List Value) :
    ∃ w1, compose (fuel + 1) sources st target = some (.ok (⟨st.heap, w1⟩, target)) := by
  induction sources with
  | nil => exact ⟨st.warnings, rfl⟩
  | cons src rest ih =>
    obtain ⟨w1, hrest⟩ := ih
    refine ⟨w1 ++ ["compose requires functions as arguments"], ?_⟩
    rw [compose_cons, hrest]
    simp only
    rw [composeStatics_other_target fuel ⟨st.heap, w1⟩ target src hT]
    rfl

/-! ## The fold, at the level of objects -/

theorem mergeStep_cases (h : Heap) (t : Nat) (ot : Obj) (src : Value) :
    mergeStep h t ot src = ot ∨
      ∃ s os, src = .ref s ∧ s ≠ t ∧ h[s]? = some os ∧ os.callable = true ∧
        mergeStep h t ot src = mergeInto ot os := by
  cases src with
  | ref s =>
    by_cases hst : s = t
    · left; simp [mergeStep, hst]
    · cases hs : h[s]? with
      | none => left; simp [mergeStep, hst, hs]
      | some os =>
        cases hc : os.callable with
        | false => left; simp [mergeStep, hst, hs, hc]
        | true =>
          right
          exact ⟨s, os, rfl, hst, hs, hc, by simp [mergeStep, hst, hs, hc]⟩
  | _ => left; rfl

theorem mergeStep_function (h : Heap) (t s : Nat) (ot os : Obj) (hst : s ≠ t)
    (hs : h[s]? = some os) (hc : os.callable = true) :
    mergeStep h t ot (.ref s) = mergeInto ot os := by
  simp [mergeStep, hst, hs, hc]

theorem mergeStep_getProp_some (h : Heap) (t : Nat) (ot : Obj) (src : Value) (k : Key)
    (d : Descriptor) (hk : getProp ot.props k = some d) :
    getProp (mergeStep h t ot src).props k = some d := by
  rcases mergeStep_cases h t ot src with he | ⟨s, os, _, _, _, _, he⟩
  · rw [he]; exact hk
  · rw [he, mergeInto_getProp, hk]

theorem mergeAll_getProp_some (h : Heap) (t : Nat) (sources : List Value) (ot : Obj) (k : Key)
    (d : Descriptor) (hk : getProp ot.props k = some d) :
    getProp (mergeAll h t sources ot).props k = some d := by
  induction sources with
  | nil => exact hk
  | cons src rest ih => rw [mergeAll_cons]; exact mergeStep_getProp_some h t _ src k d ih

theorem mergeStep_getProp_none (h : Heap) (t : Nat) (ot : Obj) (src : Value) (k : Key)
    (hk : getProp ot.props k = none)
    (hsrc : getOwnPropertyDescriptor h src k = .ok none) :
    getProp (mergeStep h t ot src).props k = none := by
  rcases mergeStep_cases h t ot src with he | ⟨s, os, rfl, _, hs, _, he⟩
  · rw [he]; exact hk
  · rw [getOwnPropertyDescriptor_ref h s os hs] at hsrc
    have hos : getProp os.props k = none := Except.ok.inj hsrc
    rw [he, mergeInto_getProp, hk]
    simp [hos]

theorem mergeAll_getProp_none (h : Heap) (t : Nat) (sources : List Value) (ot : Obj) (k : Key)
    (hk : getProp ot.props k = none)
    (hsrc : ∀ src ∈ sources, getOwnPropertyDescriptor h src k = .ok none) :
    getProp (mergeAll h t sources ot).props k = none := by
  induction sources with
  | nil => exact hk
  | cons src rest ih =>
    rw [mergeAll_cons]
    exact mergeStep_getProp_none h t _ src k
      (ih (fun s hs => hsrc s (List.mem_cons_of_mem _ hs)))
      (hsrc src (List.mem_cons_self _ _))

theorem mergeStep_getProp_copy (h : Heap) (t s : Nat) (ot os : Obj) (k : Key)
    (hst : s ≠ t) (hs : h[s]? = some os) (hc : os.callable = true)
    (hk : getProp ot.props k = none) (he : ot.extensible = true) :
    getProp (mergeStep h t ot (.ref s)).props k = getProp os.props k := by
  rw [mergeStep_function h t s ot os hst hs hc, mergeInto_getProp, hk]
  simp [he]

theorem mergeAll_append (h : Heap) (t : Nat) (pre post : List Value) (ot : Obj) :
    mergeAll h t (pre ++ post) ot = mergeAll h t pre (mergeAll h t post ot) := by
  simp [mergeAll, List.foldr_append]

/-! ## What a caller observes -/

/-- Outcome of `compose`: it returns the target; a function target has its
object replaced by `mergeAll`, any other target leaves the heap as it was. -/
theorem compose_outcome (fuel : Nat) (sources : List Value) (st : State) (target : Value) :
    ∃ st1, compose (fuel + 1) sources st target = some (.ok (st1, target)) ∧
      ((∃ t ot, target = .ref t ∧ st.heap[t]? = some ot ∧ ot.callable = true ∧
          st1.heap = st.heap.set t (mergeAll st.heap t sources ot)) ∨
        (typeOf st.heap target ≠ "function" ∧ st1.heap = st.heap)) := by
  by_cases hT : typeOf st.heap target = "function"
  · obtain ⟨t, ot, rfl, ht, hc⟩ := (typeOf_function_iff st.heap target).mp hT
    obtain ⟨w1, hrun⟩ := compose_function_target fuel st.heap t ot ht hc sources st.warnings
    exact ⟨_, hrun, Or.inl ⟨t, ot, rfl, ht, hc, rfl⟩⟩
  · obtain ⟨w1, hrun⟩ := compose_other_target fuel st target hT sources
    exact ⟨_, hrun, Or.inr ⟨hT, rfl⟩⟩

theorem getOwnPropertyDescriptor_set (h : Heap) (t : Nat) (ot o : Obj) (ht : h[t]? = some ot)
    (k : Key) : getOwnPropertyDescriptor (h.set t o) (.ref t) k = .ok (getProp o.props k) :=
  getOwnPropertyDescriptor_ref _ t o (getElem?_set_same h t ot o ht) k

/-- A member the target owns is still there, with the same descriptor. -/
theorem compose_keeps_own (fuel : Nat) (sources : List Value) (st : State) (target : Value)
    (key : Key) (d : Descriptor)
    (hown : getOwnPropertyDescriptor st.heap target key = .ok (some d)) :
    ∃ st1, compose (fuel + 1) sources st target = some (.ok (st1, target)) ∧
      getOwnPropertyDescriptor st1.heap target key = .ok (some d) := by
  obtain ⟨st1, hrun, hcase⟩ := compose_outcome fuel sources st target
  refine ⟨st1, hrun, ?_⟩
  rcases hcase with ⟨t, ot, rfl, ht, _, hheap⟩ | ⟨_, hheap⟩
  · rw [getOwnPropertyDescriptor_ref st.heap t ot ht] at hown
    rw [hheap, getOwnPropertyDescriptor_set st.heap t ot _ ht,
      mergeAll_getProp_some st.heap t sources ot key d (Except.ok.inj hown)]
  · rw [hheap]; exact hown

/-- A key the target does not own ends with the descriptor of the last source
of the list that owns it, when that source is a function and the target an
extensible function. -/
theorem compose_last_owner (fuel : Nat) (st : State) (target : Value)
    (pre : List Value) (source : Value) (post : List Value) (key : Key) (d : Descriptor)
    (hT : typeOf st.heap target = "function") (hE : isExtensible st.heap target = true)
    (hS : typeOf st.heap source = "function")
    (htgt : getOwnPropertyDescriptor st.heap target key = .ok none)
    (hsrc : getOwnPropertyDescriptor st.heap source key = .ok (some d))
    (hpost : ∀ s ∈ post, getOwnPropertyDescriptor st.heap s key = .ok none) :
    ∃ st1, compose (fuel + 1) (pre ++ source :: post) st target = some (.ok (st1, target)) ∧
      getOwnPropertyDescriptor st1.heap target key = .ok (some d) := by
  obtain ⟨st1, hrun, hcase⟩ := compose_outcome fuel (pre ++ source :: post) st target
  refine ⟨st1, hrun, ?_⟩
  rcases hcase with ⟨t, ot, rfl, ht, _, hheap⟩ | ⟨hno, _⟩
  · obtain ⟨s, os, rfl, hs, hcs⟩ := (typeOf_function_iff st.heap source).mp hS
    rw [getOwnPropertyDescriptor_ref st.heap t ot ht] at htgt
    rw [getOwnPropertyDescriptor_ref st.heap s os hs] at hsrc
    have hkt : getProp ot.props key = none := Except.ok.inj htgt
    have hks : getProp os.props key = some d := Except.ok.inj hsrc
    have hst : s ≠ t := by
      intro e
      subst e
      rw [ht] at hs
      cases hs
      rw [hkt] at hks
      cases hks
    have hext : ot.extensible = true := by
      simpa [isExtensible, ht] using hE
    have h1 : getProp (mergeAll st.heap t post ot).props key = none :=
      mergeAll_getProp_none st.heap t post ot key hkt hpost
    have h2 : getProp (mergeAll st.heap t (Value.ref s :: post) ot).props key = some d := by
      rw [mergeAll_cons, mergeStep_getProp_copy st.heap t s _ os key hst hs hcs h1
        (by rw [mergeAll_extensible]; exact hext)]
      exact hks
    rw [hheap, getOwnPropertyDescriptor_set st.heap t ot _ ht, mergeAll_append,
      mergeAll_getProp_some st.heap t pre _ key d h2]
  · exact absurd hT hno

/-- Nothing but the target is written, and no object is allocated. -/
theorem compose_frame (fuel : Nat) (sources : List Value) (st : State) (target : Value) :
    ∃ st1, compose (fuel + 1) sources st target = some (.ok (st1, target)) ∧
      st1.heap.length = st.heap.length ∧
      ∀ a, Value.ref a ≠ target → st1.heap[a]? = st.heap[a]? := by
  obtain ⟨st1, hrun, hcase⟩ := compose_outcome fuel sources st target
  refine ⟨st1, hrun, ?_⟩
  rcases hcase with ⟨t, ot, rfl, ht, _, hheap⟩ | ⟨_, hheap⟩
  · rw [hheap]
    refine ⟨List.length_set _ _ _, ?_⟩
    intro a ha
    have hne : t ≠ a := fun e => ha (by rw [e])
    exact List.getElem?_set_ne hne
  · rw [hheap]
    exact ⟨rfl, fun _ _ => rfl⟩

/-! ## Skipped sources and repeated composition -/

theorem mergeAll_set (h : Heap) (t : Nat) (o : Obj) (sources : List Value) (ot : Obj) :
    mergeAll (h.set t o) t sources ot = mergeAll h t sources ot := by
  induction sources with
  | nil => rfl
  | cons src rest ih => rw [mergeAll_cons, mergeAll_cons, mergeStep_set, ih]

theorem mergeAll_filter (h : Heap) (t : Nat) (sources : List Value) (ot : Obj) :
    mergeAll h t (sources.filter (fun s => decide (typeOf h s = "function"))) ot =
      mergeAll h t sources ot := by
  induction sources with
  | nil => rfl
  | cons src rest ih =>
    by_cases hsrc : typeOf h src = "function"
    · simp only [List.filter_cons, hsrc, decide_True, if_true, mergeAll_cons]
      rw [ih]
    · simp only [List.filter_cons, hsrc, decide_False, Bool.false_eq_true, if_false,
        mergeAll_cons]
      rw [mergeStep_of_not_function h t _ src hsrc, ih]

theorem mergeInto_covers (ot os : Obj) :
    (mergeInto ot os).extensible = false ∨
      ∀ k, getProp os.props k ≠ none → getProp (mergeInto ot os).props k ≠ none := by
  cases he : ot.extensible with
  | false => left; rw [mergeInto_extensible]; exact he
  | true =>
    right
    intro k hk
    rw [mergeInto_getProp]
    cases hkt : getProp ot.props k with
    | some d => simp
    | none => simpa [he] using hk

theorem mergeStep_covered (h : Heap) (t : Nat) (ot os : Obj) (src : Value)
    (hcov : ot.extensible = false ∨
      ∀ k, getProp os.props k ≠ none → getProp ot.props k ≠ none) :
    (mergeStep h t ot src).extensible = false ∨
      ∀ k, getProp os.props k ≠ none → getProp (mergeStep h t ot src).props k ≠ none := by
  rcases hcov with he | hk
  · left; rw [mergeStep_extensible]; exact he
  · right
    intro k hks
    cases hkt : getProp ot.props k with
    | none => exact absurd hkt (hk k hks)
    | some d => rw [mergeStep_getProp_some h t ot src k d hkt]; simp

theorem mergeInto_of_covered (ot os : Obj)
    (hcov : ot.extensible = false ∨
      ∀ k, getProp os.props k ≠ none → getProp ot.props k ≠ none) :
    mergeInto ot os = ot := by
  rcases hcov with he | hk
  · exact mergeInto_of_not_extensible ot os he
  · exact mergeInto_of_keys ot os hk

/-- After the fold, every source that took part is covered by the target. -/
theorem mergeAll_covers (h : Heap) (t : Nat) (sources : List Value) (ot : Obj) (s : Nat)
    (os : Obj) (hmem : Value.ref s ∈ sources) (hst : s ≠ t) (hs : h[s]? = some os)
    (hc : os.callable = true) :
    (mergeAll h t sources ot).extensible = false ∨
      ∀ k, getProp os.props k ≠ none → getProp (mergeAll h t sources ot).props k ≠ none := by
  induction sources with
  | nil => simp at hmem
  | cons src rest ih =>
    rw [mergeAll_cons]
    rcases List.mem_cons.mp hmem with he | hin
    · rw [← he, mergeStep_function h t s _ os hst hs hc]
      exact mergeInto_covers _ os
    · exact mergeStep_covered h t _ os src (ih hin)

theorem mergeAll_fixed (h : Heap) (t : Nat) (sources : List Value) (o : Obj)
    (hfix : ∀ src ∈ sources, mergeStep h t o src = o) : mergeAll h t sources o = o := by
  induction sources with
  | nil => rfl
  | cons src rest ih =>
    rw [mergeAll_cons, ih (fun s hs => hfix s (List.mem_cons_of_mem _ hs))]
    exact hfix src (List.mem_cons_self _ _)

theorem mergeAll_idem (h : Heap) (t : Nat) (sources : List Value) (ot : Obj) :
    mergeAll h t sources (mergeAll h t sources ot) = mergeAll h t sources ot := by
  apply mergeAll_fixed
  intro src hsrc
  rcases mergeStep_cases h t (mergeAll h t sources ot) src with he | ⟨s, os, rfl, hst, hs, hc, he⟩
  · exact he
  · rw [he]
    exact mergeInto_of_covered _ os (mergeAll_covers h t sources ot s os hsrc hst hs hc)

/-- Dropping the sources that are not functions does not change the heap. -/
theorem compose_filter_functions (fuel : Nat) (sources : List Value) (st : State)
    (target : Value) :
    ∃ st1 st2, compose (fuel + 1) sources st target = some (.ok (st1, target)) ∧
      compose (fuel + 1) (sources.filter (fun s => decide (typeOf st.heap s = "function")))
        st target = some (.ok (st2, target)) ∧
      st1.heap = st2.heap := by
  obtain ⟨st1, hrun1, hcase1⟩ := compose_outcome fuel sources st target
  obtain ⟨st2, hrun2, hcase2⟩ := compose_outcome fuel
    (sources.filter (fun s => decide (typeOf st.heap s = "function"))) st target
  refine ⟨st1, st2, hrun1, hrun2, ?_⟩
  rcases hcase1 with ⟨t, ot, rfl, ht, hc, hheap1⟩ | ⟨hno1, hheap1⟩
  · rcases hcase2 with ⟨t2, ot2, he, ht2, _, hheap2⟩ | ⟨hno2, _⟩
    · cases he
      rw [ht] at ht2
      cases ht2
      rw [hheap1, hheap2, mergeAll_filter]
    · exact absurd ((typeOf_ref st.heap t ot ht).mpr hc) hno2
  · rcases hcase2 with ⟨t2, ot2, rfl, ht2, hc2, _⟩ | ⟨_, hheap2⟩
    · exact absurd ((typeOf_ref st.heap t2 ot2 ht2).mpr hc2) hno1
    · rw [hheap1, hheap2]

/-- Running the same composition again leaves the heap as the first run left
it. -/
theorem compose_twice (fuel : Nat) (sources : List Value) (st : State) (target : Value) :
    ∃ st1 st2, compose (fuel + 1) sources st target = some (.ok (st1, target)) ∧
      compose (fuel + 1) sources st1 target = some (.ok (st2, target)) ∧
      st2.heap = st1.heap := by
  obtain ⟨st1, hrun1, hcase1⟩ := compose_outcome fuel sources st target
  obtain ⟨st2, hrun2, hcase2⟩ := compose_outcome fuel sources st1 target
  refine ⟨st1, st2, hrun1, hrun2, ?_⟩
  rcases hcase2 with ⟨t2, ot2, rfl, ht2, hc2, hheap2⟩ | ⟨_, hheap2⟩
  · rcases hcase1 with ⟨t, ot, he, ht, hc, hheap1⟩ | ⟨hno1, hheap1⟩
    · cases he
      have hat : st1.heap[t2]? = some (mergeAll st.heap t2 sources ot) := by
        rw [hheap1]; exact getElem?_set_same st.heap t2 ot _ ht
      rw [hat] at ht2
      cases ht2
      rw [hheap2, hheap1, mergeAll_set, mergeAll_idem, List.set_set]
    · rw [hheap1] at ht2
      exact absurd ((typeOf_ref st.heap t2 ot2 ht2).mpr hc2) hno1
  · exact hheap2

/-- A key that neither the target nor any element of the list owns is not on
the target afterwards, whatever the prototypes of the sources own. -/
theorem compose_absent_key (fuel : Nat) (sources : List Value) (st : State) (target : Value)
    (key : Key)
    (htgt : getOwnPropertyDescriptor st.heap target key = .ok none)
    (hsrc : ∀ s ∈ sources, getOwnPropertyDescriptor st.heap s key = .ok none) :
    ∃ st1, compose (fuel + 1) sources st target = some (.ok (st1, target)) ∧
      getOwnPropertyDescriptor st1.heap target key = .ok none := by
  obtain ⟨st1, hrun, hcase⟩ := compose_outcome fuel sources st target
  refine ⟨st1, hrun, ?_⟩
  rcases hcase with ⟨t, ot, rfl, ht, _, hheap⟩ | ⟨_, hheap⟩
  · rw [getOwnPropertyDescriptor_ref st.heap t ot ht] at htgt
    rw [hheap, getOwnPropertyDescriptor_set st.heap t ot _ ht,
      mergeAll_getProp_none st.heap t sources ot key (Except.ok.inj htgt) hsrc]
  · rw [hheap]; exact htgt

/-! ## Which source decides a key -/

theorem mergeStep_getProp (h : Heap) (t : Nat) (o : Obj) (src : Value) (k : Key) :
    getProp (mergeStep h t o src).props k =
      match getProp o.props k with
      | some d => some d
      | none => if o.extensible then offered h t src k else none := by
  cases src with
  | ref s =>
    by_cases hst : s = t
    · cases hk : getProp o.props k <;> simp [mergeStep, offered, hst, hk]
    · cases hs : h[s]? with
      | none => cases hk : getProp o.props k <;> simp [mergeStep, offered, hst, hs, hk]
      | some os =>
        cases hc : os.callable with
        | false => cases hk : getProp o.props k <;> simp [mergeStep, offered, hst, hs, hc, hk]
        | true =>
          rw [mergeStep_function h t s o os hst hs hc, mergeInto_getProp]
          simp [offered, hst, hs, hc]
  | _ => cases hk : getProp o.props k <;> simp [mergeStep, offered, hk]

theorem mergeAll_getProp (h : Heap) (t : Nat) (sources : List Value) (ot : Obj) (k : Key) :
    getProp (mergeAll h t sources ot).props k =
      match getProp ot.props k with
      | some d => some d
      | none => if ot.extensible then lastOffered h t sources k else none := by
  induction sources with
  | nil => cases hk : getProp ot.props k <;> simp [mergeAll, lastOffered, hk]
  | cons src rest ih =>
    rw [mergeAll_cons, mergeStep_getProp, ih, mergeAll_extensible]
    cases hk : getProp ot.props k with
    | some d => rfl
    | none =>
      cases he : ot.extensible with
      | false => simp
      | true =>
        cases hl : lastOffered h t rest k <;> simp [lastOffered, hl]

/-- The member map of a function target after `compose`, key by key. -/
theorem compose_getProp (fuel : Nat) (sources : List Value) (st : State) (t : Nat) (ot : Obj)
    (ht : st.heap[t]? = some ot) (hc : ot.callable = true) :
    ∃ st1, compose (fuel + 1) sources st (.ref t) = some (.ok (st1, .ref t)) ∧
      ∀ k, getOwnPropertyDescriptor st1.heap (.ref t) k =
        .ok (match getProp ot.props k with
          | some d => some d
          | none => if ot.extensible then lastOffered st.heap t sources k else none) := by
  obtain ⟨w1, hrun⟩ := compose_function_target fuel st.heap t ot ht hc sources st.warnings
  refine ⟨_, hrun, ?_⟩
  intro k
  rw [getOwnPropertyDescriptor_set st.heap t ot _ ht, mergeAll_getProp]

theorem lastOffered_singleton (h : Heap) (t : Nat) (src : Value) (k : Key) :
    lastOffered h t [src] k = offered h t src k := rfl

theorem offered_of_function (h : Heap) (t s : Nat) (ot os : Obj) (k : Key)
    (ht : h[t]? = some ot) (hs : h[s]? = some os) (hc : os.callable = true)
    (hk : getProp ot.props k = none) : offered h t (.ref s) k = getProp os.props k := by
  by_cases hst : s = t
  · subst hst
    rw [ht] at hs
    cases hs
    simp [offered, hk]
  · simp [offered, hst, hs, hc]

/-! ## Splitting the list of sources, and the unused fuel -/

theorem compose_append (fuel : Nat) (xs ys : List Value) (st : State) (target : Value) :
    compose fuel (xs ++ ys) st target =
      match compose fuel ys st target with
      | none => none
      | some (.error e) => some (.error e)
      | some (.ok (st1, mid)) => compose fuel xs st1 mid := by
  induction xs with
  | nil =>
    rw [List.nil_append]
    cases hys : compose fuel ys st target with
    | none => rfl
    | some r =>
      cases r with
      | error e => rfl
      | ok p => rfl
  | cons x xs ih =>
    rw [List.cons_append, compose_cons, ih]
    cases hys : compose fuel ys st target with
    | none => rfl
    | some r =>
      cases r with
      | error e => rfl
      | ok p => rfl

/-- The recursion of `composeStatics` is never entered: one unit of fuel gives
the result of any larger amount. -/
theorem composeStatics_fuel (fuel : Nat) (st : State) (target src : Value) :
    composeStatics (fuel + 1) st target src = composeStatics 1 st target src := by
  simp [composeStatics, objectPrototype, toBoolean]

theorem compose_fuel (fuel : Nat) (sources : List Value) (st : State) (target : Value) :
    compose (fuel + 1) sources st target = compose 1 sources st target := by
  induction sources with
  | nil => rfl
  | cons src rest ih =>
    rw [compose_cons, compose_cons, ih]
    cases hrest : compose 1 rest st target with
    | none => rfl
    | some r =>
      cases r with
      | error e => rfl
      | ok p => exact composeStatics_fuel fuel p.1 p.2 src

/-! ## Order of the sources -/

theorem offered_none_of_own_none (h : Heap) (t : Nat) (src : Value) (k : Key)
    (hown : getOwnPropertyDescriptor h src k = .ok none) : offered h t src k = none := by
  obtain ⟨s, os, rfl, hs, hk⟩ := getOwnPropertyDescriptor_ok h src k none hown
  by_cases hst : s = t
  · simp [offered, hst]
  · cases hc : os.callable <;> simp [offered, hst, hs, hc, hk]

theorem lastOffered_none (h : Heap) (t : Nat) (k : Key) (l : List Value)
    (hall : ∀ s ∈ l, offered h t s k = none) : lastOffered h t l k = none := by
  induction l with
  | nil => rfl
  | cons x rest ih =>
    simp only [lastOffered]
    rw [ih (fun s hs => hall s (List.mem_cons_of_mem _ hs))]
    exact hall x (List.mem_cons_self _ _)

/-- When no two sources offer the key, the order of the list does not matter. -/
theorem lastOffered_perm (h : Heap) (t : Nat) (k : Key) {l1 l2 : List Value}
    (hp : l1.Perm l2) :
    l1.Pairwise (fun a b => offered h t a k = none ∨ offered h t b k = none) →
      lastOffered h t l1 k = lastOffered h t l2 k := by
  induction hp with
  | nil => intro _; rfl
  | cons x _ ih =>
    intro hd
    simp only [lastOffered]
    rw [ih (List.pairwise_cons.mp hd).2]
  | swap x y l =>
    intro hd
    have hyx := (List.pairwise_cons.mp hd).1 x (List.mem_cons_self _ _)
    simp only [lastOffered]
    cases hl : lastOffered h t l k with
    | some d => rfl
    | none =>
      rcases hyx with hy | hx
      · rw [hy]
        cases offered h t x k <;> rfl
      · rw [hx]
        cases offered h t y k <;> rfl
  | trans hp1 _ ih1 ih2 =>
    intro hd
    have hd2 := hp1.pairwise hd (fun hr => hr.symm)
    rw [ih1 hd, ih2 hd2]

/-- A source that offers the key decides it when no other source offers it. -/
theorem lastOffered_of_mem (h : Heap) (t : Nat) (k : Key) (d : Descriptor) (l : List Value)
    (s : Value) (hmem : s ∈ l) (hs : offered h t s k = some d)
    (hd : l.Pairwise (fun a b => offered h t a k = none ∨ offered h t b k = none)) :
    lastOffered h t l k = some d := by
  induction l with
  | nil => simp at hmem
  | cons x rest ih =>
    obtain ⟨hx, hrest⟩ := List.pairwise_cons.mp hd
    simp only [lastOffered]
    rcases List.mem_cons.mp hmem with he | hin
    · subst he
      have hnone : ∀ b ∈ rest, offered h t b k = none := by
        intro b hb
        rcases hx b hb with h1 | h2
        · rw [hs] at h1; cases h1
        · exact h2
      rw [lastOffered_none h t k rest hnone]
      exact hs
    · rw [ih hin hrest]

/-! ## The reading "last compose supersedes first" -/

theorem supersede_keys_getProp (original members : List (Key × Descriptor)) (k : Key)
    (ks : List Key) (acc : List (Key × Descriptor)) :
    getProp (ks.foldl
        (fun acc k =>
          if getProp original k = none then
            match getProp members k with
            | some d => setProp acc k d
            | none => acc
          else acc) acc) k =
      if k ∈ ks ∧ getProp original k = none then
        match getProp members k with
        | some d => some d
        | none => getProp acc k
      else getProp acc k := by
  induction ks generalizing acc with
  | nil => simp
  | cons k0 ks ih =>
    rw [List.foldl_cons, ih]
    by_cases hk0 : k0 = k
    · subst hk0
      cases ho : getProp original k0 with
      | some d0 => simp
      | none =>
        cases hm : getProp members k0 with
        | none => simp
        | some d => simp [getProp_setProp]
    · have hk0' : ¬ k = k0 := fun e => hk0 e.symm
      have hacc : getProp (if getProp original k0 = none then
            match getProp members k0 with
            | some d => setProp acc k0 d
            | none => acc
          else acc) k = getProp acc k := by
        split
        · split
          · simp [getProp_setProp, hk0]
          · rfl
        · rfl
      rw [hacc]
      simp [hk0']

theorem supersedeOne_getProp (original members acc : List (Key × Descriptor)) (k : Key) :
    getProp (supersedeOne original members acc) k =
      if getProp original k = none then
        match getProp members k with
        | some d => some d
        | none => getProp acc k
      else getProp acc k := by
  unfold supersedeOne
  rw [supersede_keys_getProp]
  cases hm : getProp members k with
  | none => simp
  | some d =>
    have hmem : k ∈ members.map Prod.fst := (mem_map_fst_iff members k).mpr (by simp [hm])
    simp [hmem]

theorem supersede_fold_getProp (h : Heap) (t : Nat) (ot : Obj) (ht : h[t]? = some ot)
    (k : Key) (sources : List Value) (hfun : ∀ s ∈ sources, typeOf h s = "function")
    (acc : List (Key × Descriptor)) :
    getProp (sources.foldl
        (fun acc src =>
          match toObject h src with
          | .ok os => supersedeOne ot.props os.props acc
          | .error _ => acc) acc) k =
      if getProp ot.props k = none then
        match lastOffered h t sources k with
        | some d => some d
        | none => getProp acc k
      else getProp acc k := by
  induction sources generalizing acc with
  | nil => simp [lastOffered]
  | cons src rest ih =>
    rw [List.foldl_cons, ih (fun s hs => hfun s (List.mem_cons_of_mem _ hs))]
    obtain ⟨s, os, rfl, hs, hc⟩ :=
      (typeOf_function_iff h src).mp (hfun src (List.mem_cons_self _ _))
    cases hk : getProp ot.props k with
    | some d0 => simp [toObject, hs, supersedeOne_getProp, hk]
    | none =>
      simp only [lastOffered, offered_of_function h t s ot os k ht hs hc hk, if_true]
      cases hl : lastOffered h t rest k with
      | some d => rfl
      | none => simp [toObject, hs, supersedeOne_getProp, hk]

theorem lastSupersedesFirst_getProp (h : Heap) (t : Nat) (ot : Obj) (ht : h[t]? = some ot)
    (k : Key) (sources : List Value) (hfun : ∀ s ∈ sources, typeOf h s = "function") :
    getProp (lastSupersedesFirst h ot.props sources) k =
      match getProp ot.props k with
      | some d => some d
      | none => lastOffered h t sources k := by
  unfold lastSupersedesFirst
  rw [supersede_fold_getProp h t ot ht k sources hfun]
  cases hk : getProp ot.props k with
  | some d0 => simp
  | none => cases hl : lastOffered h t sources k <;> simp

theorem mem_ownKeys_of_offered (h : Heap) (t : Nat) (src : Value) (k : Key) (d : Descriptor)
    (ho : offered h t src k = some d) : k ∈ ownKeys h src := by
  cases src with
  | ref s =>
    by_cases hst : s = t
    · simp [offered, hst] at ho
    · cases hs : h[s]? with
      | none => simp [offered, hst, hs] at ho
      | some os =>
        cases hc : os.callable with
        | false => simp [offered, hst, hs, hc] at ho
        | true =>
          simp only [offered, hst, hs, hc, if_true, if_false] at ho
          simp only [ownKeys, getObjectKeys_ref h s os hs]
          exact (Obj.mem_keys os k).mpr (by simp [ho])
  | _ => simp [offered] at ho

theorem disjoint_offers (h : Heap) (t : Nat) (ot : Obj) (ht : h[t]? = some ot) (k : Key)
    (hk : getProp ot.props k = none) (a b : Value)
    (hab : ∀ k1 ∈ ownKeys h a, k1 ∈ ownKeys h b → k1 ∈ ownKeys h (.ref t)) :
    offered h t a k = none ∨ offered h t b k = none := by
  cases ha : offered h t a k with
  | none => left; rfl
  | some da =>
    cases hb : offered h t b k with
    | none => right; rfl
    | some db =>
      exfalso
      have hin := hab k (mem_ownKeys_of_offered h t a k da ha)
        (mem_ownKeys_of_offered h t b k db hb)
      simp only [ownKeys, getObjectKeys_ref h t ot ht] at hin
      exact (Obj.mem_keys ot k).mp hin hk

/-! ## The loop over any duplicate-free list of keys -/

theorem validateAndApply_isSome_congr (o1 o2 : Obj) (k : Key) (d : Descriptor)
    (hk : getProp o1.props k = getProp o2.props k) (he : o1.extensible = o2.extensible) :
    (validateAndApply o1 k d).isSome = (validateAndApply o2 k d).isSome := by
  unfold validateAndApply
  rw [hk, he]
  cases getProp o2.props k with
  | none => cases o2.extensible <;> simp
  | some cur => cases hr : redefinitionAllowed cur d <;> simp [hr]

theorem applyKey_getProp_at (os o : Obj) (k : Key) :
    getProp (applyKey os o k).props k =
      match getProp os.props k with
      | some d => if (validateAndApply o k d).isSome then some d else getProp o.props k
      | none => getProp o.props k := by
  unfold applyKey
  cases hs : getProp os.props k with
  | none => rfl
  | some d =>
    simp only
    cases hv : validateAndApply o k d with
    | none => simp
    | some o1 => simp [validateAndApply_some o o1 k d hv, getProp_setProp]

theorem applyKey_getProp_congr (os o1 o2 : Obj) (k : Key)
    (hk : getProp o1.props k = getProp o2.props k) (he : o1.extensible = o2.extensible) :
    getProp (applyKey os o1 k).props k = getProp (applyKey os o2 k).props k := by
  rw [applyKey_getProp_at, applyKey_getProp_at, hk]
  cases getProp os.props k with
  | none => rfl
  | some d => simp only [validateAndApply_isSome_congr o1 o2 k d hk he]

/-- In a loop over distinct keys, what happens at a key is what one
`addProperty` at that key does to the receiver as it was at the start. -/
theorem addProps_getProp_at (os : Obj) (ks : List Key) (ot : Obj) (hnd : ks.Nodup) (k : Key) :
    getProp (addProps os ks ot).props k =
      if k ∈ ks then getProp (applyKey os ot k).props k else getProp ot.props k := by
  induction ks generalizing ot with
  | nil => simp [addProps]
  | cons k0 ks ih =>
    have hnd1 : ks.Nodup := (List.nodup_cons.mp hnd).2
    have hk0 : k0 ∉ ks := (List.nodup_cons.mp hnd).1
    have step := ih (applyKey os ot k0) hnd1
    simp only [addProps, List.foldl_cons] at step ⊢
    rw [step]
    by_cases h1 : k = k0
    · subst h1
      simp [hk0]
    · have hne : k0 ≠ k := fun e => h1 e.symm
      by_cases h2 : k ∈ ks
      · simp only [h2, List.mem_cons, h1, false_or, if_true]
        exact applyKey_getProp_congr os _ ot k (applyKey_getProp_ne os ot k0 k hne)
          (applyKey_extensible os ot k0)
      · simp [h1, h2, applyKey_getProp_ne os ot k0 k hne]

theorem applyKey_of_define_error (h : Heap) (t : Nat) (ot os : Obj) (ht : h[t]? = some ot)
    (k : Key) (e : JsError)
    (hdef : defineProperty h (.ref t) k (getProp os.props k) = .error e) :
    applyKey os ot k = ot := by
  unfold applyKey
  simp only [defineProperty, ht] at hdef
  cases hs : getProp os.props k with
  | none => rfl
  | some d =>
    rw [hs] at hdef
    simp only at hdef
    cases hv : validateAndApply ot k d with
    | none => simp [hv]
    | some o1 => rw [hv] at hdef; cases hdef

theorem applyKey_of_define_ok (h : Heap) (t : Nat) (ot os : Obj) (ht : h[t]? = some ot)
    (k : Key) (h1 : Heap)
    (hdef : defineProperty h (.ref t) k (getProp os.props k) = .ok h1) :
    getProp (applyKey os ot k).props k = getProp os.props k := by
  rw [applyKey_getProp_at]
  simp only [defineProperty, ht] at hdef
  cases hs : getProp os.props k with
  | none => rw [hs] at hdef; cases hdef
  | some d =>
    rw [hs] at hdef
    simp only at hdef
    cases hv : validateAndApply ot k d with
    | none => rw [hv] at hdef; cases hdef
    | some o1 => simp [hv]

/-- The loop never throws, and each key is settled by its own definition. -/
theorem forEachAddProperty_isolated (st : State) (t s : Nat) (ot os : Obj) (hne : s ≠ t)
    (ht : st.heap[t]? = some ot) (hs : st.heap[s]? = some os) (ks : List Key)
    (hnd : ks.Nodup) :
    ∃ st1, forEachAddProperty (.ref t) (.ref s) ks st = .ok st1 ∧
      ∀ k ∈ ks,
        (∀ e, defineProperty st.heap (.ref t) k (getProp os.props k) = .error e →
          getOwnPropertyDescriptor st1.heap (.ref t) k = .ok (getProp ot.props k)) ∧
        (∀ h1, defineProperty st.heap (.ref t) k (getProp os.props k) = .ok h1 →
          getOwnPropertyDescriptor st1.heap (.ref t) k = .ok (getProp os.props k)) := by
  refine ⟨_, forEachAddProperty_ref t s hne os ks st.heap st.warnings ot ht hs, ?_⟩
  intro k hk
  simp only [getOwnPropertyDescriptor_set st.heap t ot _ ht,
    addProps_getProp_at os ks ot hnd k, hk, if_true]
  constructor
  · intro e hdef
    rw [applyKey_of_define_error st.heap t ot os ht k e hdef]
  · intro h1 hdef
    rw [applyKey_of_define_ok st.heap t ot os ht k h1 hdef]

/-! ## Calls write to `this` -/

theorem toObject_ok (h : Heap) (o : Value) (obj : Obj) (ho : toObject h o = .ok obj) :
    ∃ a, o = .ref a ∧ h[a]? = some obj := by
  cases o with
  | ref a =>
    cases ha : h[a]? with
    | none => simp [toObject, ha] at ho
    | some o1 =>
      simp only [toObject, ha] at ho
      cases ho
      exact ⟨a, rfl, ha⟩
  | _ => simp [toObject] at ho

theorem defineProperty_ok (h : Heap) (recv : Value) (k : Key) (desc : Option Descriptor)
    (h2 : Heap) (hd : defineProperty h recv k desc = .ok h2) :
    ∃ r o1, recv = .ref r ∧ h2 = h.set r o1 := by
  cases recv with
  | ref r =>
    simp only [defineProperty] at hd
    cases hr : h[r]? with
    | none => rw [hr] at hd; cases hd
    | some ro =>
      rw [hr] at hd
      cases desc with
      | none => cases hd
      | some d =>
        simp only at hd
        cases hv : validateAndApply ro k d with
        | none => rw [hv] at hd; cases hd
        | some o1 =>
          rw [hv] at hd
          exact ⟨r, o1, rfl, (Except.ok.inj hd).symm⟩
  | _ => simp [defineProperty] at hd

theorem setOnReceiver_ok (h : Heap) (recv : Value) (p : Key) (v : Value) (h2 : Heap)
    (hs : setOnReceiver h recv p v = .ok h2) : ∃ r o1, recv = .ref r ∧ h2 = h.set r o1 := by
  unfold setOnReceiver at hs
  split at hs
  · cases hs
  · cases hs
  · split at hs
    · exact defineProperty_ok h recv p _ h2 hs
    · cases hs
  · exact defineProperty_ok h recv p _ h2 hs

theorem setOnReceiver_frame (h : Heap) (recv : Value) (p : Key) (v : Value) (h2 : Heap)
    (hs : setOnReceiver h recv p v = .ok h2) (a : Nat) (ha : Value.ref a ≠ recv) :
    h2[a]? = h[a]? := by
  obtain ⟨r, o1, rfl, rfl⟩ := setOnReceiver_ok h recv p v h2 hs
  have hne : r ≠ a := fun e => ha (by rw [e])
  exact List.getElem?_set_ne hne

/-- An assignment through `[[Set]]` writes to the receiver only, setters
included. -/
theorem ordinarySet_frame (code : Code) (recv : Value) (fuel : Nat) (h : Heap) (o : Value)
    (p : Key) (v : Value) (h2 : Heap)
    (hrun : ordinarySet code fuel h o p v recv = some (.ok h2)) (a : Nat)
    (ha : Value.ref a ≠ recv) : h2[a]? = h[a]? := by
  induction fuel generalizing o p v with
  | zero => simp [ordinarySet] at hrun
  | succ n ih =>
    unfold ordinarySet at hrun
    split at hrun
    · cases hrun
    · split at hrun
      · split at hrun
        · exact setOnReceiver_frame h recv p v h2 (Option.some.inj hrun) a ha
        · exact ih _ p v hrun
      · split at hrun
        · exact setOnReceiver_frame h recv p v h2 (Option.some.inj hrun) a ha
        · cases hrun
      · split at hrun
        · cases hrun
        · cases hrun; rfl
        · exact ih _ _ _ hrun

theorem callFunction_frame (code : Code) (fuel : Nat) (h : Heap) (f thisArg : Value)
    (h2 : Heap) (hrun : callFunction code fuel h f thisArg = some (.ok h2)) (a : Nat)
    (ha : Value.ref a ≠ thisArg) : h2[a]? = h[a]? := by
  unfold callFunction at hrun
  split at hrun
  · cases hrun
  · cases hrun; rfl
  · exact ordinarySet_frame code thisArg fuel h thisArg _ _ h2 hrun a ha

/-- Invoking a member through `recv` leaves every object other than `recv` as
it was. -/
theorem invokeMember_frame (code : Code) (fuel : Nat) (h : Heap) (recv : Value) (key : Key)
    (h2 : Heap) (hrun : invokeMember code fuel h recv key = some (.ok h2)) (a : Nat)
    (ha : Value.ref a ≠ recv) : h2[a]? = h[a]? := by
  unfold invokeMember at hrun
  split at hrun
  · cases hrun
  · cases hrun
  · exact callFunction_frame code fuel h _ recv h2 hrun a ha
  · split at hrun
    · cases hrun; rfl
    · exact callFunction_frame code fuel h _ recv h2 hrun a ha

/-! ## Where an assignment lands -/

theorem setOnReceiver_fresh (h : Heap) (r : Nat) (ro : Obj) (p : Key) (v : Value)
    (hr : h[r]? = some ro) (hp : getProp ro.props p = none) (he : ro.extensible = true) :
    setOnReceiver h (.ref r) p v =
      .ok (h.set r { ro with props := setProp ro.props p (.data v true true true) }) := by
  simp [setOnReceiver, getOwnPropertyDescriptor_ref h r ro hr, hp, defineProperty, hr,
    validateAndApply_fresh ro p _ hp, he]

/-- When the search falls to the receiver, `[[Set]]` is the write on the
receiver, whatever the fuel beyond the length of the search. -/
theorem ordinarySet_falls (code : Code) (p : Key) (v : Value) (recv : Value) (h : Heap)
    (n : Nat) (o : Value) (hfall : fallsToReceiver n h o p = true) :
    ordinarySet code n h o p v recv = some (setOnReceiver h recv p v) := by
  induction n generalizing o with
  | zero => simp [fallsToReceiver] at hfall
  | succ n ih =>
    unfold fallsToReceiver at hfall
    unfold ordinarySet
    cases ho : toObject h o with
    | error e => rw [ho] at hfall; cases hfall
    | ok obj =>
      rw [ho] at hfall
      simp only at hfall ⊢
      cases hp : getProp obj.props p with
      | none =>
        rw [hp] at hfall
        simp only at hfall ⊢
        cases hproto : obj.proto with
        | null => rfl
        | undefined => rw [hproto] at hfall; exact ih _ hfall
        | bool b => rw [hproto] at hfall; exact ih _ hfall
        | num i => rw [hproto] at hfall; exact ih _ hfall
        | str x => rw [hproto] at hfall; exact ih _ hfall
        | sym i => rw [hproto] at hfall; exact ih _ hfall
        | ref b => rw [hproto] at hfall; exact ih _ hfall
      | some d0 =>
        rw [hp] at hfall
        cases d0 with
        | data v0 w e c =>
          simp only at hfall
          simp [hfall]
        | accessor g st e c => simp at hfall

theorem fallsToReceiver_pos (n : Nat) (h : Heap) (o : Value) (p : Key)
    (hfall : fallsToReceiver n h o p = true) : ∃ m, n = m + 1 := by
  cases n with
  | zero => simp [fallsToReceiver] at hfall
  | succ m => exact ⟨m, rfl⟩

/-- Invoking through `r` an own member whose function assigns `this.p = v`
is the assignment with `r` as receiver. -/
theorem invokeMember_own (code : Code) (m : Nat) (h : Heap) (r : Nat) (ro : Obj)
    (key : Key) (d : Descriptor) (f : Nat) (p : Key) (v : Value)
    (hr : h[r]? = some ro) (hk : getProp ro.props key = some d)
    (hd : d.invoked = .ref f) (hf : typeOf h (.ref f) = "function")
    (hcode : code f = some ⟨p, v⟩) :
    invokeMember code (m + 1) h (.ref r) key =
      ordinarySet code (m + 1) h (.ref r) p v (.ref r) := by
  have hcall : callFunction code (m + 1) h (.ref f) (.ref r) =
      ordinarySet code (m + 1) h (.ref r) p v (.ref r) := by
    simp only [callFunction, bodyOf, hf, hcode, ne_eq, not_true_eq_false, if_false]
  cases d with
  | data g w e c =>
    simp only [Descriptor.invoked] at hd
    subst hd
    simp only [invokeMember, lookupMember, toObject, hr, hk]
    exact hcall
  | accessor g st e c =>
    simp only [Descriptor.invoked] at hd
    subst hd
    simp only [invokeMember, lookupMember, toObject, hr, hk]
    simpa using hcall

/-- Invoking through `r` an own member whose function assigns `this.p = v`
creates `p` on `r` when `r` does not own `p`, is extensible, and the search for
`p` falls to the receiver. -/
theorem invokeMember_adds (code : Code) (n : Nat) (h : Heap) (r : Nat) (ro : Obj)
    (key : Key) (d : Descriptor) (f : Nat) (p : Key) (v : Value)
    (hr : h[r]? = some ro) (hk : getProp ro.props key = some d)
    (hd : d.invoked = .ref f) (hf : typeOf h (.ref f) = "function")
    (hcode : code f = some ⟨p, v⟩) (hfall : fallsToReceiver n h (.ref r) p = true)
    (hp : getProp ro.props p = none) (he : ro.extensible = true) :
    invokeMember code n h (.ref r) key =
      some (.ok (h.set r { ro with props := setProp ro.props p (.data v true true true) })) := by
  obtain ⟨m, rfl⟩ := fallsToReceiver_pos n h (.ref r) p hfall
  rw [invokeMember_own code m h r ro key d f p v hr hk hd hf hcode,
    ordinarySet_falls code p v (.ref r) h (m + 1) (.ref r) hfall,
    setOnReceiver_fresh h r ro p v hr hp he]

/-- Invoking through `r` an own member whose function assigns `this.p = v`
replaces the value of the writable data property `p` that `r` owns. -/
theorem invokeMember_updates (code : Code) (m : Nat) (h : Heap) (r : Nat) (ro : Obj)
    (key : Key) (d : Descriptor) (f : Nat) (p : Key) (v v0 : Value) (e c : Bool)
    (hr : h[r]? = some ro) (hk : getProp ro.props key = some d)
    (hd : d.invoked = .ref f) (hf : typeOf h (.ref f) = "function")
    (hcode : code f = some ⟨p, v⟩) (hp : getProp ro.props p = some (.data v0 true e c)) :
    invokeMember code (m + 1) h (.ref r) key =
      some (.ok (h.set r { ro with props := setProp ro.props p (.data v true e c) })) := by
  have hallowed : redefinitionAllowed (.data v0 true e c) (.data v true e c) = true := by
    cases c <;> cases e <;> rfl
  have hset : ordinarySet code (m + 1) h (.ref r) p v (.ref r) =
      some (.ok (h.set r { ro with props := setProp ro.props p (.data v true e c) })) := by
    simp [ordinarySet, toObject, hr, hp, setOnReceiver, getOwnPropertyDescriptor_ref h r ro hr,
      defineProperty, validateAndApply, hallowed]
  have hcall : callFunction code (m + 1) h (.ref f) (.ref r) =
      some (.ok (h.set r { ro with props := setProp ro.props p (.data v true e c) })) := by
    simp only [callFunction, bodyOf, hf, hcode, ne_eq, not_true_eq_false, if_false]
    exact hset
  cases d with
  | data g w e1 c1 =>
    simp only [Descriptor.invoked] at hd
    subst hd
    simp only [invokeMember, lookupMember, toObject, hr, hk]
    exact hcall
  | accessor g st e1 c1 =>
    simp only [Descriptor.invoked] at hd
    subst hd
    simp only [invokeMember, lookupMember, toObject, hr, hk]
    simpa using hcall

/-! ## Heaps that differ in the members of one object -/

theorem typeOf_set (h : Heap) (t : Nat) (ot o1 : Obj) (ht : h[t]? = some ot)
    (hc : o1.callable = ot.callable) (v : Value) : typeOf (h.set t o1) v = typeOf h v := by
  cases v with
  | ref a =>
    by_cases hat : a = t
    · subst hat
      simp [typeOf, getElem?_set_same h a ot o1 ht, ht, hc]
    · have hta : t ≠ a := fun e => hat e.symm
      simp [typeOf, List.getElem?_set_ne hta]
  | _ => rfl

theorem toObject_set_proto (h : Heap) (t : Nat) (ot o1 : Obj) (ht : h[t]? = some ot)
    (o : Value) :
    (∃ e, toObject (h.set t o1) o = .error e ∧ toObject h o = .error e) ∨
      ∃ x y, toObject (h.set t o1) o = .ok x ∧ toObject h o = .ok y ∧
        (x = y ∨ (x = o1 ∧ y = ot)) := by
  cases o with
  | ref a =>
    by_cases hat : a = t
    · subst hat
      right
      exact ⟨o1, ot, by simp [toObject, getElem?_set_same h a ot o1 ht], by simp [toObject, ht],
        Or.inr ⟨rfl, rfl⟩⟩
    · have hta : t ≠ a := fun e => hat e.symm
      cases ha : h[a]? with
      | none => left; exact ⟨.typeError, by simp [toObject, List.getElem?_set_ne hta, ha],
          by simp [toObject, ha]⟩
      | some x =>
        right
        exact ⟨x, x, by simp [toObject, List.getElem?_set_ne hta, ha], by simp [toObject, ha],
          Or.inl rfl⟩
  | _ => left; exact ⟨.typeError, rfl, rfl⟩

/-- Replacing an object by one with the same parent, whose entry at `p` is
the same or is a writable data property, keeps every search for `p` that fell
to the receiver falling to the receiver. -/
theorem fallsToReceiver_set (h : Heap) (t : Nat) (ot o1 : Obj) (p : Key)
    (ht : h[t]? = some ot) (hproto : o1.proto = ot.proto)
    (hp : getProp o1.props p = getProp ot.props p ∨
      ∃ v e c, getProp o1.props p = some (.data v true e c))
    (n : Nat) (o : Value) (hfall : fallsToReceiver n h o p = true) :
    fallsToReceiver n (h.set t o1) o p = true := by
  induction n generalizing o with
  | zero => simp [fallsToReceiver] at hfall
  | succ n ih =>
    unfold fallsToReceiver at hfall ⊢
    rcases toObject_set_proto h t ot o1 ht o with ⟨e, h1, h2⟩ | ⟨x, y, h1, h2, hxy⟩
    · rw [h2] at hfall; cases hfall
    · rw [h2] at hfall
      rw [h1]
      simp only at hfall ⊢
      have hpx : x.proto = y.proto := by
        rcases hxy with rfl | ⟨rfl, rfl⟩
        · rfl
        · exact hproto
      have hgx : getProp x.props p = getProp y.props p ∨
          ∃ v e c, getProp x.props p = some (.data v true e c) := by
        rcases hxy with rfl | ⟨rfl, rfl⟩
        · left; rfl
        · exact hp
      rcases hgx with hsame | ⟨v, e, c, hw⟩
      · rw [hsame, hpx]
        cases hy : getProp y.props p with
        | some d0 =>
          rw [hy] at hfall
          cases d0 with
          | data v0 w e c => exact hfall
          | accessor g st e c => simp at hfall
        | none =>
          rw [hy] at hfall
          simp only at hfall ⊢
          cases hyp : y.proto with
          | null => rfl
          | undefined => rw [hyp] at hfall; exact ih _ hfall
          | bool b => rw [hyp] at hfall; exact ih _ hfall
          | num i => rw [hyp] at hfall; exact ih _ hfall
          | str z => rw [hyp] at hfall; exact ih _ hfall
          | sym i => rw [hyp] at hfall; exact ih _ hfall
          | ref b => rw [hyp] at hfall; exact ih _ hfall
      · rw [hw]

theorem isExtensible_ref (h : Heap) (a : Nat) (o : Obj) (ha : h[a]? = some o) :
    isExtensible h (.ref a) = o.extensible := by
  simp [isExtensible, ha]

theorem isExtensible_set (h : Heap) (t : Nat) (ot o1 : Obj) (ht : h[t]? = some ot)
    (he : o1.extensible = ot.extensible) (x : Value) :
    isExtensible (h.set t o1) x = isExtensible h x := by
  cases x with
  | ref a =>
    by_cases hat : a = t
    · subst hat
      simp [isExtensible, getElem?_set_same h a ot o1 ht, ht, he]
    · have hta : t ≠ a := fun e => hat e.symm
      simp [isExtensible, List.getElem?_set_ne hta]
  | _ => rfl

theorem getOwnPropertyDescriptor_congr (h h2 : Heap) (a : Nat) (e : h2[a]? = h[a]?) (k : Key) :
    getOwnPropertyDescriptor h2 (.ref a) k = getOwnPropertyDescriptor h (.ref a) k := by
  simp [getOwnPropertyDescriptor, toObject, e]

/-! ## One invocation, as a caller observes it -/

/-- What one write of `p` on the object at `r` leaves behind: the new
descriptor at `p`, the other members of `r`, every other object, the kinds of
all values, and the searches for `p` that fell to the receiver. -/
theorem write_observed (h : Heap) (r : Nat) (ro : Obj) (p : Key) (nd : Descriptor)
    (hr : h[r]? = some ro) (hw : ∃ v e c, nd = .data v true e c) :
    getOwnPropertyDescriptor (h.set r { ro with props := setProp ro.props p nd }) (.ref r) p =
        .ok (some nd) ∧
      (∀ k, k ≠ p →
        getOwnPropertyDescriptor (h.set r { ro with props := setProp ro.props p nd }) (.ref r) k =
          getOwnPropertyDescriptor h (.ref r) k) ∧
      (∀ a, Value.ref a ≠ Value.ref r →
        (h.set r { ro with props := setProp ro.props p nd })[a]? = h[a]?) ∧
      (∀ x, typeOf (h.set r { ro with props := setProp ro.props p nd }) x = typeOf h x) ∧
      (∀ x, isExtensible (h.set r { ro with props := setProp ro.props p nd }) x =
        isExtensible h x) ∧
      ∀ n o, fallsToReceiver n h o p = true →
        fallsToReceiver n (h.set r { ro with props := setProp ro.props p nd }) o p = true := by
  refine ⟨?_, ?_, ?_, ?_, ?_, ?_⟩
  · rw [getOwnPropertyDescriptor_set h r ro _ hr]
    simp [getProp_setProp]
  · intro k hk
    have hne : ¬ p = k := fun e => hk e.symm
    rw [getOwnPropertyDescriptor_set h r ro _ hr, getOwnPropertyDescriptor_ref h r ro hr]
    simp [getProp_setProp, hne]
  · intro a ha
    have hne : r ≠ a := fun e => ha (by rw [e])
    exact List.getElem?_set_ne hne
  · intro x
    exact typeOf_set h r ro { ro with props := setProp ro.props p nd } hr rfl x
  · intro x
    exact isExtensible_set h r ro { ro with props := setProp ro.props p nd } hr rfl x
  · intro n o hfall
    obtain ⟨v, e, c, rfl⟩ := hw
    have hnew : getProp (setProp ro.props p (.data v true e c)) p =
        some (.data v true e c) := by
      rw [getProp_setProp]
      simp
    exact fallsToReceiver_set h r ro
      { ro with props := setProp ro.props p (.data v true e c) } p hr rfl
      (Or.inr ⟨v, e, c, hnew⟩) n o hfall

/-- Invoking the member through an entity that lacks `p`: `p` is added to that
entity, and nothing else is touched. -/
theorem invoke_adds_observed (code : Code) (n : Nat) (h : Heap) (recv : Value) (key : Key)
    (d : Descriptor) (f : Nat) (p : Key) (v : Value)
    (hown : getOwnPropertyDescriptor h recv key = .ok (some d))
    (hd : d.invoked = .ref f) (hf : typeOf h (.ref f) = "function")
    (hcode : code f = some ⟨p, v⟩) (hfall : fallsToReceiver n h recv p = true)
    (hp : getOwnPropertyDescriptor h recv p = .ok none) (he : isExtensible h recv = true) :
    ∃ h2, invokeMember code n h recv key = some (.ok h2) ∧
      getOwnPropertyDescriptor h2 recv p = .ok (some (.data v true true true)) ∧
      (∀ k, k ≠ p → getOwnPropertyDescriptor h2 recv k = getOwnPropertyDescriptor h recv k) ∧
      (∀ a, Value.ref a ≠ recv → h2[a]? = h[a]?) ∧
      (∀ x, typeOf h2 x = typeOf h x) ∧
      (∀ x, isExtensible h2 x = isExtensible h x) ∧
      ∀ n1 o, fallsToReceiver n1 h o p = true → fallsToReceiver n1 h2 o p = true := by
  obtain ⟨r, ro, rfl, hr, hk⟩ := getOwnPropertyDescriptor_ok h recv key _ hown
  rw [getOwnPropertyDescriptor_ref h r ro hr] at hp
  rw [isExtensible_ref h r ro hr] at he
  exact ⟨_, invokeMember_adds code n h r ro key d f p v hr hk hd hf hcode hfall
      (Except.ok.inj hp) he,
    write_observed h r ro p (.data v true true true) hr ⟨v, true, true, rfl⟩⟩

/-- Invoking the member through an entity that has `p` as a writable data
property: the value of `p` changes on that entity, and nothing else is
touched. -/
theorem invoke_updates_observed (code : Code) (m : Nat) (h : Heap) (recv : Value) (key : Key)
    (d : Descriptor) (f : Nat) (p : Key) (v v0 : Value) (e c : Bool)
    (hown : getOwnPropertyDescriptor h recv key = .ok (some d))
    (hd : d.invoked = .ref f) (hf : typeOf h (.ref f) = "function")
    (hcode : code f = some ⟨p, v⟩)
    (hp : getOwnPropertyDescriptor h recv p = .ok (some (.data v0 true e c))) :
    ∃ h2, invokeMember code (m + 1) h recv key = some (.ok h2) ∧
      getOwnPropertyDescriptor h2 recv p = .ok (some (.data v true e c)) ∧
      (∀ k, k ≠ p → getOwnPropertyDescriptor h2 recv k = getOwnPropertyDescriptor h recv k) ∧
      (∀ a, Value.ref a ≠ recv → h2[a]? = h[a]?) ∧
      (∀ x, typeOf h2 x = typeOf h x) ∧
      (∀ x, isExtensible h2 x = isExtensible h x) ∧
      ∀ n1 o, fallsToReceiver n1 h o p = true → fallsToReceiver n1 h2 o p = true := by
  obtain ⟨r, ro, rfl, hr, hk⟩ := getOwnPropertyDescriptor_ok h recv key _ hown
  rw [getOwnPropertyDescriptor_ref h r ro hr] at hp
  exact ⟨_, invokeMember_updates code m h r ro key d f p v v0 e c hr hk hd hf hcode
      (Except.ok.inj hp),
    write_observed h r ro p (.data v true e c) hr ⟨v, e, c, rfl⟩⟩

/-- Two invocations in a row, through `first` and then through `second`, of a
member both own: each adds `p` to the entity it is invoked through. -/
theorem invoke_in_turn (code : Code) (n : Nat) (h : Heap) (first second : Value) (key : Key)
    (d : Descriptor) (f : Nat) (p : Key) (v : Value) (hne : first ≠ second)
    (hown1 : getOwnPropertyDescriptor h first key = .ok (some d))
    (hown2 : getOwnPropertyDescriptor h second key = .ok (some d))
    (hd : d.invoked = .ref f) (hf : typeOf h (.ref f) = "function")
    (hcode : code f = some ⟨p, v⟩)
    (hfall1 : fallsToReceiver n h first p = true)
    (hfall2 : fallsToReceiver n h second p = true)
    (hp1 : getOwnPropertyDescriptor h first p = .ok none)
    (hp2 : getOwnPropertyDescriptor h second p = .ok none)
    (he1 : isExtensible h first = true) (he2 : isExtensible h second = true) :
    ∃ h2 h3, invokeMember code n h first key = some (.ok h2) ∧
      getOwnPropertyDescriptor h2 first p = .ok (some (.data v true true true)) ∧
      getOwnPropertyDescriptor h2 second p = .ok none ∧
      invokeMember code n h2 second key = some (.ok h3) ∧
      getOwnPropertyDescriptor h3 second p = .ok (some (.data v true true true)) ∧
      (∀ k, getOwnPropertyDescriptor h3 first k = getOwnPropertyDescriptor h2 first k) ∧
      (∀ k, k ≠ p →
        getOwnPropertyDescriptor h2 first k = getOwnPropertyDescriptor h first k) ∧
      (∀ k, getOwnPropertyDescriptor h2 second k = getOwnPropertyDescriptor h second k) ∧
      ∀ k, k ≠ p →
        getOwnPropertyDescriptor h3 second k = getOwnPropertyDescriptor h second k := by
  obtain ⟨a, oa, rfl, ha, _⟩ := getOwnPropertyDescriptor_ok h first key _ hown1
  obtain ⟨b, ob, rfl, hb, _⟩ := getOwnPropertyDescriptor_ok h second key _ hown2
  obtain ⟨h2, hrun1, hnew1, hrest1, hframe1, htype1, hext1, hfalls1⟩ :=
    invoke_adds_observed code n h (.ref a) key d f p v hown1 hd hf hcode hfall1 hp1 he1
  have hb2 : ∀ k, getOwnPropertyDescriptor h2 (.ref b) k =
      getOwnPropertyDescriptor h (.ref b) k :=
    fun k => getOwnPropertyDescriptor_congr h h2 b (hframe1 b (fun e => hne e.symm)) k
  obtain ⟨h3, hrun2, hnew2, hrest2, hframe2, _, _, _⟩ :=
    invoke_adds_observed code n h2 (.ref b) key d f p v ((hb2 key).trans hown2) hd
      ((htype1 _).trans hf) hcode (hfalls1 n _ hfall2) ((hb2 p).trans hp2)
      ((hext1 _).trans he2)
  refine ⟨h2, h3, hrun1, hnew1, (hb2 p).trans hp2, hrun2, hnew2, ?_, hrest1, hb2, ?_⟩
  · intro k
    exact getOwnPropertyDescriptor_congr h2 h3 a (hframe2 a hne) k
  · intro k hk
    exact (hrest2 k hk).trans (hb2 k)

/-! ## The claims -/

/-- C1, no-overwrite: for a function target `target`, any list of sources and
any key (string or symbol) the target owns before the call, `compose` returns
the target and the target's descriptor at the key is the one it had before. -/
theorem no_overwrite (fuel : Nat) (st : State) (target : Value) (sources : List Value)
    (key : Key) (d : Descriptor)
    (hT : typeOf st.heap target = "function")
    (hown : getOwnPropertyDescriptor st.heap target key = .ok (some d)) :
    ∃ st1, compose (fuel + 1) sources st target = some (.ok (st1, target)) ∧
      typeOf st1.heap target = "function" ∧
      getOwnPropertyDescriptor st1.heap target key = .ok (some d) := by
  obtain ⟨st1, hrun, hd⟩ := compose_keeps_own fuel sources st target key d hown
  refine ⟨st1, hrun, ?_, hd⟩
  obtain ⟨st2, hrun2, hcase⟩ := compose_outcome fuel sources st target
  rw [hrun] at hrun2
  cases hrun2
  rcases hcase with ⟨t, ot, rfl, ht, hc, hheap⟩ | ⟨hno, _⟩
  · rw [hheap, typeOf_ref _ t _ (getElem?_set_same st.heap t ot _ ht), mergeAll_callable]
    exact hc
  · exact absurd hT hno

theorem no_overwrite_witness :
    typeOf world0.heap (.ref 2) = "function" ∧
      getOwnPropertyDescriptor world0.heap (.ref 2) (.str "originalMethod") =
        .ok (some (method 4)) ∧
      ∃ st1, compose 1 [.ref 9] world0 (.ref 2) = some (.ok (st1, .ref 2)) ∧
        typeOf st1.heap (.ref 2) = "function" ∧
        getOwnPropertyDescriptor st1.heap (.ref 2) (.str "originalMethod") =
          .ok (some (method 4)) :=
  ⟨rfl, rfl,
    no_overwrite 0 world0 (.ref 2) [.ref 9] (.str "originalMethod") (method 4) rfl rfl⟩

/-- C2, copy with descriptor fidelity: for an extensible function target, a
function source and a key (string or symbol) the source owns and the target
does not, after `compose [source]` the target owns the key with the source's
descriptor, accessor or value and flags included, and the source still has
it. -/
theorem copy_descriptor_fidelity (fuel : Nat) (st : State) (target source : Value)
    (key : Key) (d : Descriptor)
    (hT : typeOf st.heap target = "function") (hE : isExtensible st.heap target = true)
    (hS : typeOf st.heap source = "function")
    (hsrc : getOwnPropertyDescriptor st.heap source key = .ok (some d))
    (htgt : getOwnPropertyDescriptor st.heap target key = .ok none) :
    ∃ st1, compose (fuel + 1) [source] st target = some (.ok (st1, target)) ∧
      getOwnPropertyDescriptor st1.heap target key = .ok (some d) ∧
      getOwnPropertyDescriptor st1.heap source key = .ok (some d) := by
  obtain ⟨st1, hrun, hd⟩ :=
    compose_last_owner fuel st target [] source [] key d hT hE hS htgt hsrc (by simp)
  refine ⟨st1, hrun, hd, ?_⟩
  obtain ⟨st2, hrun2, _, hframe⟩ := compose_frame fuel [source] st target
  rw [List.nil_append, hrun2] at hrun
  cases hrun
  obtain ⟨s, os, rfl, hs, hks⟩ := getOwnPropertyDescriptor_ok st.heap source key _ hsrc
  have hne : Value.ref s ≠ target := by
    intro e
    rw [← e, hsrc] at htgt
    cases htgt
  rw [getOwnPropertyDescriptor_ref _ s os ((hframe s hne).trans hs), hks]

theorem copy_descriptor_fidelity_witness :
    typeOf world0.heap (.ref 2) = "function" ∧ isExtensible world0.heap (.ref 2) = true ∧
      typeOf world0.heap (.ref 9) = "function" ∧
      getOwnPropertyDescriptor world0.heap (.ref 9) (.sym 1) = .ok (some (getter 11)) ∧
      getOwnPropertyDescriptor world0.heap (.ref 2) (.sym 1) = .ok none ∧
      ∃ st1, compose 1 [.ref 9] world0 (.ref 2) = some (.ok (st1, .ref 2)) ∧
        getOwnPropertyDescriptor st1.heap (.ref 2) (.sym 1) = .ok (some (getter 11)) ∧
        getOwnPropertyDescriptor st1.heap (.ref 9) (.sym 1) = .ok (some (getter 11)) :=
  ⟨rfl, rfl, rfl, rfl, rfl,
    copy_descriptor_fidelity 0 world0 (.ref 2) (.ref 9) (.sym 1) (getter 11)
      rfl rfl rfl rfl rfl⟩

/-- C3, the last source supersedes the earlier ones: for an extensible
function target, a list of function sources of any length, and a key the
target does not own, if `source` owns the key and no source after it in the
list does, then after `compose` the target's descriptor at the key is the one
of `source`, whatever the sources before it define. -/
theorem last_source_supersedes (fuel : Nat) (st : State) (target : Value)
    (pre : List Value) (source : Value) (post : List Value) (key : Key) (d : Descriptor)
    (hT : typeOf st.heap target = "function") (hE : isExtensible st.heap target = true)
    (hfun : ∀ s ∈ pre ++ source :: post, typeOf st.heap s = "function")
    (htgt : getOwnPropertyDescriptor st.heap target key = .ok none)
    (hsrc : getOwnPropertyDescriptor st.heap source key = .ok (some d))
    (hpost : ∀ s ∈ post, getOwnPropertyDescriptor st.heap s key = .ok none) :
    ∃ st1, compose (fuel + 1) (pre ++ source :: post) st target = some (.ok (st1, target)) ∧
      getOwnPropertyDescriptor st1.heap target key = .ok (some d) :=
  compose_last_owner fuel st target pre source post key d hT hE
    (hfun source (by simp)) htgt hsrc hpost

theorem last_source_supersedes_witness :
    typeOf world0.heap (.ref 2) = "function" ∧ isExtensible world0.heap (.ref 2) = true ∧
      (∀ s ∈ [Value.ref 15, Value.ref 19] ++ Value.ref 23 :: [Value.ref 9],
        typeOf world0.heap s = "function") ∧
      getOwnPropertyDescriptor world0.heap (.ref 2) (.str "overwritableMethod") = .ok none ∧
      getOwnPropertyDescriptor world0.heap (.ref 23) (.str "overwritableMethod") =
        .ok (some (method 25)) ∧
      (∀ s ∈ [Value.ref 9],
        getOwnPropertyDescriptor world0.heap s (.str "overwritableMethod") = .ok none) ∧
      ∃ st1, compose 1 ([.ref 15, .ref 19] ++ .ref 23 :: [.ref 9]) world0 (.ref 2) =
          some (.ok (st1, .ref 2)) ∧
        getOwnPropertyDescriptor st1.heap (.ref 2) (.str "overwritableMethod") =
          .ok (some (method 25)) :=
  have hfun : ∀ s ∈ [Value.ref 15, Value.ref 19] ++ Value.ref 23 :: [Value.ref 9],
      typeOf world0.heap s = "function" := by
    intro s hs
    simp only [List.cons_append, List.nil_append, List.mem_cons, List.mem_singleton,
      List.mem_nil_iff, or_false] at hs
    rcases hs with rfl | rfl | rfl | rfl <;> rfl
  have hpost : ∀ s ∈ [Value.ref 9],
      getOwnPropertyDescriptor world0.heap s (.str "overwritableMethod") = .ok none := by
    intro s hs
    simp only [List.mem_singleton] at hs
    subst hs
    rfl
  ⟨rfl, rfl, hfun, rfl, rfl, hpost,
    last_source_supersedes 0 world0 (.ref 2) [.ref 15, .ref 19] (.ref 23) [.ref 9]
      (.str "overwritableMethod") (method 25) rfl rfl hfun rfl rfl hpost⟩

/-- C4 as stated fails: with `FirstSource` and `SecondSource` of the test-suite
both defining `overwritableMethod` and `Target` not defining it,
`compose [FirstSource, SecondSource]` leaves `SecondSource`'s method on
`Target`, which is not `FirstSource`'s. -/
theorem first_source_wins_counterexample :
    ∃ st1, compose 1 [.ref 15, .ref 19] world0 (.ref 2) = some (.ok (st1, .ref 2)) ∧
      getOwnPropertyDescriptor world0.heap (.ref 2) (.str "overwritableMethod") = .ok none ∧
      getOwnPropertyDescriptor world0.heap (.ref 15) (.str "overwritableMethod") =
        .ok (some (method 18)) ∧
      getOwnPropertyDescriptor world0.heap (.ref 19) (.str "overwritableMethod") =
        .ok (some (method 21)) ∧
      getOwnPropertyDescriptor st1.heap (.ref 2) (.str "overwritableMethod") =
        .ok (some (method 21)) ∧
      getOwnPropertyDescriptor st1.heap (.ref 2) (.str "overwritableMethod") ≠
        getOwnPropertyDescriptor world0.heap (.ref 15) (.str "overwritableMethod") :=
  ⟨_, rfl, rfl, rfl, rfl, rfl, fun e =>
    have e1 : (Except.ok (some (method 21)) : Except JsError (Option Descriptor)) =
        .ok (some (method 18)) := e
    absurd (Option.some.inj (Except.ok.inj e1)) (by decide)⟩

/-- C4 amended, the last source wins: for an extensible function target and
sources `[a, b]` that both own the key while the target does not, `b` being a
function, after `compose [a, b]` the target's member at the key is the member
of `b`, the last source of the list, and not the member of `a` when the two
differ. -/
theorem last_of_two_sources_wins (fuel : Nat) (st : State) (target a b : Value)
    (key : Key) (da db : Descriptor)
    (hT : typeOf st.heap target = "function") (hE : isExtensible st.heap target = true)
    (hB : typeOf st.heap b = "function")
    (htgt : getOwnPropertyDescriptor st.heap target key = .ok none)
    (ha : getOwnPropertyDescriptor st.heap a key = .ok (some da))
    (hb : getOwnPropertyDescriptor st.heap b key = .ok (some db)) :
    ∃ st1, compose (fuel + 1) [a, b] st target = some (.ok (st1, target)) ∧
      getOwnPropertyDescriptor st1.heap target key =
        getOwnPropertyDescriptor st.heap b key ∧
      (da ≠ db → getOwnPropertyDescriptor st1.heap target key ≠
        getOwnPropertyDescriptor st.heap a key) := by
  obtain ⟨st1, hrun, hd⟩ :=
    compose_last_owner fuel st target [a] b [] key db hT hE hB htgt hb (by simp)
  refine ⟨st1, hrun, hd.trans hb.symm, ?_⟩
  intro hne e
  rw [hd, ha] at e
  exact hne (Option.some.inj (Except.ok.inj e)).symm

theorem last_of_two_sources_wins_witness :
    typeOf world0.heap (.ref 2) = "function" ∧ isExtensible world0.heap (.ref 2) = true ∧
      typeOf world0.heap (.ref 19) = "function" ∧
      getOwnPropertyDescriptor world0.heap (.ref 2) (.str "overwritableMethod") = .ok none ∧
      getOwnPropertyDescriptor world0.heap (.ref 15) (.str "overwritableMethod") =
        .ok (some (method 18)) ∧
      getOwnPropertyDescriptor world0.heap (.ref 19) (.str "overwritableMethod") =
        .ok (some (method 21)) ∧
      ∃ st1, compose 1 [.ref 15, .ref 19] world0 (.ref 2) = some (.ok (st1, .ref 2)) ∧
        getOwnPropertyDescriptor st1.heap (.ref 2) (.str "overwritableMethod") =
          getOwnPropertyDescriptor world0.heap (.ref 19) (.str "overwritableMethod") ∧
        (method 18 ≠ method 21 →
          getOwnPropertyDescriptor st1.heap (.ref 2) (.str "overwritableMethod") ≠
            getOwnPropertyDescriptor world0.heap (.ref 15) (.str "overwritableMethod")) :=
  ⟨rfl, rfl, rfl, rfl, rfl, rfl,
    last_of_two_sources_wins 0 world0 (.ref 2) (.ref 15) (.ref 19)
      (.str "overwritableMethod") (method 18) (method 21) rfl rfl rfl rfl rfl rfl⟩

/-- C5, source immutability: for every target and list of sources, every
object other than the target (so every source that is not the target, and
every ancestor of a source that is not the target) is after `compose` exactly
the object it was before, own keys and descriptors included; only the target
is written. -/
theorem source_immutability (fuel : Nat) (st : State) (target : Value)
    (sources : List Value) :
    ∃ st1, compose (fuel + 1) sources st target = some (.ok (st1, target)) ∧
      ∀ a, Value.ref a ≠ target → st1.heap[a]? = st.heap[a]? :=
  (compose_frame fuel sources st target).elim fun st1 h => ⟨st1, h.1, h.2.2⟩

theorem source_immutability_witness :
    ∃ st1, compose 1 [.ref 15, .ref 9] world0 (.ref 2) = some (.ok (st1, .ref 2)) ∧
      st1.heap[9]? = world0.heap[9]? ∧ st1.heap[5]? = world0.heap[5]? ∧
      st1.heap[15]? = world0.heap[15]? :=
  (source_immutability 0 world0 (.ref 2) [.ref 15, .ref 9]).elim fun st1 h =>
    ⟨st1, h.1, h.2 9 (by decide), h.2 5 (by decide), h.2 15 (by decide)⟩

/-- C6, the call always returns the given target: for every list of sources
(elements of any kind, the list possibly empty) and every target value,
`compose` terminates with any positive fuel, raises nothing, returns the very
value it was given, and allocates no object. -/
theorem returns_target (fuel : Nat) (sources : List Value) (st : State) (target : Value) :
    ∃ st1, compose (fuel + 1) sources st target = some (.ok (st1, target)) ∧
      st1.heap.length = st.heap.length :=
  (compose_frame fuel sources st target).elim fun st1 h => ⟨st1, h.1, h.2.1⟩

/-- C7 fails on the code: `Source extends Parent`, `Parent` is a function that
owns `parentOnly`, and the target (an extensible function owning only
`targetOwn`) shares no key with either; after `compose [Source]` the target
owns its own key and `Source`'s own keys, and `parentOnly` is not among them,
whatever the fuel. -/
theorem ancestor_members_missing :
    typeOf world0.heap (.ref 26) = "function" ∧ isExtensible world0.heap (.ref 26) = true ∧
      typeOf world0.heap (.ref 9) = "function" ∧
      getPrototypeOf world0.heap (.ref 9) = .ok (.ref 5) ∧
      typeOf world0.heap (.ref 5) = "function" ∧
      getObjectKeys world0.heap (.ref 26) = .ok [.str "targetOwn"] ∧
      getObjectKeys world0.heap (.ref 9) =
        .ok [.str "length", .str "name", .str "prototype", .str "sourceMethod",
          .str "originalMethod", .str "shared", .sym 1] ∧
      getObjectKeys world0.heap (.ref 5) =
        .ok [.str "length", .str "name", .str "prototype", .str "parentOnly",
          .str "shared"] ∧
      (∃ st1, compose 1 [.ref 9] world0 (.ref 26) = some (.ok (st1, .ref 26)) ∧
        getObjectKeys st1.heap (.ref 26) =
          .ok [.str "targetOwn", .str "length", .str "name", .str "prototype",
            .str "sourceMethod", .str "originalMethod", .str "shared", .sym 1]) ∧
      ∀ fuel, ∃ st1, compose (fuel + 1) [.ref 9] world0 (.ref 26) =
          some (.ok (st1, .ref 26)) ∧
        getOwnPropertyDescriptor st1.heap (.ref 26) (.str "parentOnly") = .ok none :=
  ⟨rfl, rfl, rfl, rfl, rfl, rfl, rfl, rfl, ⟨_, rfl, rfl⟩, fun fuel =>
    compose_absent_key fuel [.ref 9] world0 (.ref 26) (.str "parentOnly") rfl (by
      intro s hs
      simp only [List.mem_singleton] at hs
      subst hs
      rfl)⟩

/-- C8, the most-derived definition wins inside one source's chain: for an
extensible function target and a function source whose parent is a function,
if source and parent both own the key and the target does not, then after
`compose [source]` the target's descriptor at the key is the source's, and
not the parent's when the two differ. The proof does not need the hypotheses
that link `parent` to `source`. -/
theorem most_derived_wins (fuel : Nat) (st : State) (target source parent : Value)
    (key : Key) (d dP : Descriptor)
    (hT : typeOf st.heap target = "function") (hE : isExtensible st.heap target = true)
    (hS : typeOf st.heap source = "function")
    (_hparent : getPrototypeOf st.heap source = .ok parent)
    (_hP : typeOf st.heap parent = "function")
    (hsrc : getOwnPropertyDescriptor st.heap source key = .ok (some d))
    (hpar : getOwnPropertyDescriptor st.heap parent key = .ok (some dP))
    (htgt : getOwnPropertyDescriptor st.heap target key = .ok none) :
    ∃ st1, compose (fuel + 1) [source] st target = some (.ok (st1, target)) ∧
      getOwnPropertyDescriptor st1.heap target key =
        getOwnPropertyDescriptor st.heap source key ∧
      (dP ≠ d → getOwnPropertyDescriptor st1.heap target key ≠
        getOwnPropertyDescriptor st.heap parent key) := by
  obtain ⟨st1, hrun, hd⟩ :=
    compose_last_owner fuel st target [] source [] key d hT hE hS htgt hsrc (by simp)
  refine ⟨st1, hrun, hd.trans hsrc.symm, ?_⟩
  intro hne e
  rw [hd, hpar] at e
  exact hne (Option.some.inj (Except.ok.inj e)).symm

theorem most_derived_wins_witness :
    typeOf world0.heap (.ref 2) = "function" ∧ isExtensible world0.heap (.ref 2) = true ∧
      typeOf world0.heap (.ref 9) = "function" ∧
      getPrototypeOf world0.heap (.ref 9) = .ok (.ref 5) ∧
      typeOf world0.heap (.ref 5) = "function" ∧
      getOwnPropertyDescriptor world0.heap (.ref 9) (.str "shared") = .ok (some (method 14)) ∧
      getOwnPropertyDescriptor world0.heap (.ref 5) (.str "shared") = .ok (some (method 8)) ∧
      getOwnPropertyDescriptor world0.heap (.ref 2) (.str "shared") = .ok none ∧
      ∃ st1, compose 1 [.ref 9] world0 (.ref 2) = some (.ok (st1, .ref 2)) ∧
        getOwnPropertyDescriptor st1.heap (.ref 2) (.str "shared") =
          getOwnPropertyDescriptor world0.heap (.ref 9) (.str "shared") ∧
        (method 8 ≠ method 14 →
          getOwnPropertyDescriptor st1.heap (.ref 2) (.str "shared") ≠
            getOwnPropertyDescriptor world0.heap (.ref 5) (.str "shared")) :=
  ⟨rfl, rfl, rfl, rfl, rfl, rfl, rfl, rfl,
    most_derived_wins 0 world0 (.ref 2) (.ref 9) (.ref 5) (.str "shared") (method 14)
      (method 8) rfl rfl rfl rfl rfl rfl rfl rfl⟩

/-- C9, invalid arguments are skipped, not raised: (1) a pairwise merge whose
receiver or source is not a function returns the receiver and leaves the heap
as it was; (2) for a function target, `compose` over the sources and `compose`
over the sources without their non-function elements end in the same heap;
(3) for a target that is not a function, `compose` leaves the heap as it was
for any list of sources. -/
theorem invalid_arguments_skipped (fuel : Nat) (st : State) (target : Value)
    (sources : List Value) :
    (∀ receiver source,
      typeOf st.heap receiver ≠ "function" ∨ typeOf st.heap source ≠ "function" →
      ∃ st1, composeStatics (fuel + 1) st receiver source = some (.ok (st1, receiver)) ∧
        st1.heap = st.heap) ∧
    (typeOf st.heap target = "function" →
      ∃ st1 st2, compose (fuel + 1) sources st target = some (.ok (st1, target)) ∧
        compose (fuel + 1) (sources.filter (fun s => decide (typeOf st.heap s = "function")))
          st target = some (.ok (st2, target)) ∧
        st1.heap = st2.heap) ∧
    (typeOf st.heap target ≠ "function" →
      ∃ st1, compose (fuel + 1) sources st target = some (.ok (st1, target)) ∧
        st1.heap = st.heap) := by
  refine ⟨?_, fun _ => compose_filter_functions fuel sources st target, ?_⟩
  · intro receiver source hbad
    refine ⟨consoleWarn st "compose requires functions as arguments", ?_, rfl⟩
    simp [composeStatics, hbad]
  · intro hT
    obtain ⟨w1, hrun⟩ := compose_other_target fuel st target hT sources
    exact ⟨_, hrun, rfl⟩

theorem invalid_arguments_skipped_witness :
    (∃ st1, composeStatics 1 world0 (.ref 2) (.ref 27) = some (.ok (st1, .ref 2)) ∧
      st1.heap = world0.heap) ∧
    (∃ st1 st2, compose 1 [.ref 15, .num 7, .ref 27, .ref 19] world0 (.ref 2) =
        some (.ok (st1, .ref 2)) ∧
      compose 1 ([Value.ref 15, .num 7, .ref 27, .ref 19].filter
          (fun s => decide (typeOf world0.heap s = "function"))) world0 (.ref 2) =
        some (.ok (st2, .ref 2)) ∧
      st1.heap = st2.heap) ∧
    (∃ st1, compose 1 [.ref 15, .ref 19] world0 (.ref 27) = some (.ok (st1, .ref 27)) ∧
      st1.heap = world0.heap) :=
  ⟨(invalid_arguments_skipped 0 world0 (.ref 2) []).1 (.ref 2) (.ref 27)
      (Or.inr (by decide)),
    (invalid_arguments_skipped 0 world0 (.ref 2) [.ref 15, .num 7, .ref 27, .ref 19]).2.1 rfl,
    (invalid_arguments_skipped 0 world0 (.ref 27) [.ref 15, .ref 19]).2.2 (by decide)⟩

/-- C10, re-composition is a no-op: for every target and list of sources,
running `compose` with the same sources on the result of the first run
returns the target again and leaves the heap, hence the target's own keys and
descriptors, exactly as the first run left it. -/
theorem recomposition_noop (fuel : Nat) (sources : List Value) (st : State)
    (target : Value) :
    ∃ st1 st2, compose (fuel + 1) sources st target = some (.ok (st1, target)) ∧
      compose (fuel + 1) sources st1 target = some (.ok (st2, target)) ∧
      st2.heap = st1.heap :=
  compose_twice fuel sources st target

/-- C14, the composition over a concatenated list splits at any point: for
every target and lists `xs`, `ys`, running `compose ys` and then `compose xs`
on its result ends in the same state, with the same returned value, as
`compose (xs ++ ys)`; `compose []` leaves the state as it was, and
`compose [a, b]` is `compose [b]` followed by `compose [a]`. -/
theorem compose_splits (fuel : Nat) (xs ys : List Value) (st : State) (target a b : Value) :
    (∃ st1 st2, compose (fuel + 1) ys st target = some (.ok (st1, target)) ∧
      compose (fuel + 1) xs st1 target = some (.ok (st2, target)) ∧
      compose (fuel + 1) (xs ++ ys) st target = some (.ok (st2, target))) ∧
    compose (fuel + 1) [] st target = some (.ok (st, target)) ∧
    (∃ st1 st2, compose (fuel + 1) [b] st target = some (.ok (st1, target)) ∧
      compose (fuel + 1) [a] st1 target = some (.ok (st2, target)) ∧
      compose (fuel + 1) [a, b] st target = some (.ok (st2, target))) := by
  have split : ∀ us vs : List Value,
      ∃ st1 st2, compose (fuel + 1) vs st target = some (.ok (st1, target)) ∧
        compose (fuel + 1) us st1 target = some (.ok (st2, target)) ∧
        compose (fuel + 1) (us ++ vs) st target = some (.ok (st2, target)) := by
    intro us vs
    obtain ⟨st1, h1, _⟩ := compose_frame fuel vs st target
    obtain ⟨st2, h2, _⟩ := compose_frame fuel us st1 target
    refine ⟨st1, st2, h1, h2, ?_⟩
    rw [compose_append, h1]
    exact h2
  exact ⟨split xs ys, rfl, split [a] [b]⟩

/-- C15, the result depends only on own members: the guard value
`objectPrototype` is falsy, so one unit of fuel gives the result of any larger
amount (no recursive call on a parent is made), and for a function target and
two function sources with the same own descriptor at every key, whatever
their parents, `compose [s1]` and `compose [s2]` leave the same descriptor on
the target at every key. -/
theorem own_members_only (fuel : Nat) (st : State) (target s1 s2 : Value)
    (hT : typeOf st.heap target = "function")
    (h1 : typeOf st.heap s1 = "function") (h2 : typeOf st.heap s2 = "function")
    (hsame : ∀ k, getOwnPropertyDescriptor st.heap s1 k =
      getOwnPropertyDescriptor st.heap s2 k) :
    toBoolean objectPrototype = false ∧
    compose (fuel + 1) [s1] st target = compose 1 [s1] st target ∧
    compose (fuel + 1) [s2] st target = compose 1 [s2] st target ∧
    ∃ st1 st2, compose (fuel + 1) [s1] st target = some (.ok (st1, target)) ∧
      compose (fuel + 1) [s2] st target = some (.ok (st2, target)) ∧
      ∀ k, getOwnPropertyDescriptor st1.heap target k =
        getOwnPropertyDescriptor st2.heap target k := by
  refine ⟨rfl, compose_fuel fuel [s1] st target, compose_fuel fuel [s2] st target, ?_⟩
  obtain ⟨t, ot, rfl, ht, hc⟩ := (typeOf_function_iff st.heap target).mp hT
  obtain ⟨a1, o1, rfl, ha1, hc1⟩ := (typeOf_function_iff st.heap s1).mp h1
  obtain ⟨a2, o2, rfl, ha2, hc2⟩ := (typeOf_function_iff st.heap s2).mp h2
  obtain ⟨st1, hrun1, hk1⟩ := compose_getProp fuel [.ref a1] st t ot ht hc
  obtain ⟨st2, hrun2, hk2⟩ := compose_getProp fuel [.ref a2] st t ot ht hc
  refine ⟨st1, st2, hrun1, hrun2, ?_⟩
  intro k
  rw [hk1 k, hk2 k]
  cases hk : getProp ot.props k with
  | some d => rfl
  | none =>
    have hs := hsame k
    rw [getOwnPropertyDescriptor_ref st.heap a1 o1 ha1,
      getOwnPropertyDescriptor_ref st.heap a2 o2 ha2] at hs
    simp only [lastOffered_singleton, offered_of_function st.heap t a1 ot o1 k ht ha1 hc1 hk,
      offered_of_function st.heap t a2 ot o2 k ht ha2 hc2 hk, Except.ok.inj hs]

theorem own_members_only_witness :
    typeOf world20.heap (.ref 2) = "function" ∧ typeOf world20.heap (.ref 9) = "function" ∧
      typeOf world20.heap (.ref 28) = "function" ∧
      getPrototypeOf world20.heap (.ref 9) = .ok (.ref 5) ∧
      getPrototypeOf world20.heap (.ref 28) = .ok (.ref 1) ∧
      (∀ k, getOwnPropertyDescriptor world20.heap (.ref 9) k =
        getOwnPropertyDescriptor world20.heap (.ref 28) k) ∧
      (toBoolean objectPrototype = false ∧
        compose 3 [.ref 9] world20 (.ref 2) = compose 1 [.ref 9] world20 (.ref 2) ∧
        compose 3 [.ref 28] world20 (.ref 2) = compose 1 [.ref 28] world20 (.ref 2) ∧
        ∃ st1 st2, compose 3 [.ref 9] world20 (.ref 2) = some (.ok (st1, .ref 2)) ∧
          compose 3 [.ref 28] world20 (.ref 2) = some (.ok (st2, .ref 2)) ∧
          ∀ k, getOwnPropertyDescriptor st1.heap (.ref 2) k =
            getOwnPropertyDescriptor st2.heap (.ref 2) k) :=
  ⟨rfl, rfl, rfl, rfl, rfl, fun _ => rfl,
    own_members_only 2 world20 (.ref 2) (.ref 9) (.ref 28) rfl rfl rfl (fun _ => rfl)⟩

/-- C13, the two framings of source precedence agree: for an extensible
function target and a list of function sources, the descriptor of the target
at every key after `compose` (right-to-left fold that never writes a key the
receiver has) is the one of the member map `lastSupersedesFirst` (sources
visited left to right, later members overwriting earlier ones, the target's
original members never overwritten). -/
theorem framings_agree (fuel : Nat) (st : State) (target : Value) (sources : List Value)
    (hT : typeOf st.heap target = "function") (hE : isExtensible st.heap target = true)
    (hfun : ∀ s ∈ sources, typeOf st.heap s = "function") :
    ∃ st1 ot, toObject st.heap target = .ok ot ∧
      compose (fuel + 1) sources st target = some (.ok (st1, target)) ∧
      ∀ k, getOwnPropertyDescriptor st1.heap target k =
        .ok (getProp (lastSupersedesFirst st.heap ot.props sources) k) := by
  obtain ⟨t, ot, rfl, ht, hc⟩ := (typeOf_function_iff st.heap target).mp hT
  have hext : ot.extensible = true := by simpa [isExtensible, ht] using hE
  obtain ⟨st1, hrun, hk⟩ := compose_getProp fuel sources st t ot ht hc
  refine ⟨st1, ot, by simp [toObject, ht], hrun, ?_⟩
  intro k
  rw [hk k, lastSupersedesFirst_getProp st.heap t ot ht k sources hfun]
  cases getProp ot.props k <;> simp [hext]

theorem framings_agree_witness :
    typeOf world0.heap (.ref 2) = "function" ∧ isExtensible world0.heap (.ref 2) = true ∧
      (∀ s ∈ [Value.ref 15, .ref 19, .ref 23, .ref 9], typeOf world0.heap s = "function") ∧
      ∃ st1 ot, toObject world0.heap (.ref 2) = .ok ot ∧
        compose 1 [.ref 15, .ref 19, .ref 23, .ref 9] world0 (.ref 2) =
          some (.ok (st1, .ref 2)) ∧
        ∀ k, getOwnPropertyDescriptor st1.heap (.ref 2) k =
          .ok (getProp (lastSupersedesFirst world0.heap ot.props
            [.ref 15, .ref 19, .ref 23, .ref 9]) k) :=
  have hfun : ∀ s ∈ [Value.ref 15, .ref 19, .ref 23, .ref 9],
      typeOf world0.heap s = "function" := by
    intro s hs
    simp only [List.mem_cons, List.mem_singleton, List.mem_nil_iff, or_false] at hs
    rcases hs with rfl | rfl | rfl | rfl <;> rfl
  ⟨rfl, rfl, hfun,
    framings_agree 0 world0 (.ref 2) [.ref 15, .ref 19, .ref 23, .ref 9] rfl rfl hfun⟩

/-- C16, sources with disjoint keys commute: for an extensible function
target and a list of function sources such that no key outside the target's
own keys is owned by two sources of the list, every permutation of the list
leaves the same descriptor on the target at every key (hence the same own
keys), and every member of a source at a key the target did not own is on the
target with the source's descriptor. -/
theorem disjoint_sources_commute (fuel : Nat) (st : State) (target : Value)
    (sources permuted : List Value)
    (hT : typeOf st.heap target = "function") (hE : isExtensible st.heap target = true)
    (hfun : ∀ s ∈ sources, typeOf st.heap s = "function")
    (hdisj : sources.Pairwise (fun a b =>
      ∀ k ∈ ownKeys st.heap a, k ∈ ownKeys st.heap b → k ∈ ownKeys st.heap target))
    (hperm : sources.Perm permuted) :
    ∃ st1 st2, compose (fuel + 1) sources st target = some (.ok (st1, target)) ∧
      compose (fuel + 1) permuted st target = some (.ok (st2, target)) ∧
      (∀ k, getOwnPropertyDescriptor st1.heap target k =
        getOwnPropertyDescriptor st2.heap target k) ∧
      ∀ s ∈ sources, ∀ k d, getOwnPropertyDescriptor st.heap target k = .ok none →
        getOwnPropertyDescriptor st.heap s k = .ok (some d) →
        getOwnPropertyDescriptor st2.heap target k = .ok (some d) := by
  obtain ⟨t, ot, rfl, ht, hc⟩ := (typeOf_function_iff st.heap target).mp hT
  have hext : ot.extensible = true := by simpa [isExtensible, ht] using hE
  obtain ⟨st1, hrun1, hk1⟩ := compose_getProp fuel sources st t ot ht hc
  obtain ⟨st2, hrun2, hk2⟩ := compose_getProp fuel permuted st t ot ht hc
  have hpair : ∀ k, getProp ot.props k = none →
      sources.Pairwise (fun a b =>
        offered st.heap t a k = none ∨ offered st.heap t b k = none) := by
    intro k hk
    exact hdisj.imp (fun {a b} hab => disjoint_offers st.heap t ot ht k hk a b hab)
  have hsame : ∀ k, getProp ot.props k = none →
      lastOffered st.heap t sources k = lastOffered st.heap t permuted k :=
    fun k hk => lastOffered_perm st.heap t k hperm (hpair k hk)
  refine ⟨st1, st2, hrun1, hrun2, ?_, ?_⟩
  · intro k
    rw [hk1 k, hk2 k]
    cases hk : getProp ot.props k with
    | some d => rfl
    | none => simp only [hsame k hk]
  · intro s hs k d htk hsk
    rw [getOwnPropertyDescriptor_ref st.heap t ot ht] at htk
    have hk : getProp ot.props k = none := Except.ok.inj htk
    obtain ⟨a, os, rfl, ha, hca⟩ := (typeOf_function_iff st.heap s).mp (hfun s hs)
    rw [getOwnPropertyDescriptor_ref st.heap a os ha] at hsk
    have hoff : offered st.heap t (.ref a) k = some d := by
      rw [offered_of_function st.heap t a ot os k ht ha hca hk]
      exact Except.ok.inj hsk
    rw [hk2 k, hk, ← hsame k hk,
      lastOffered_of_mem st.heap t k d sources (.ref a) hs hoff (hpair k hk)]
    simp [hext]

theorem disjoint_sources_commute_witness :
    typeOf world0.heap (.ref 2) = "function" ∧ isExtensible world0.heap (.ref 2) = true ∧
      (∀ s ∈ [Value.ref 15, .ref 5, .ref 12], typeOf world0.heap s = "function") ∧
      [Value.ref 15, .ref 5, .ref 12].Pairwise (fun a b =>
        ∀ k ∈ ownKeys world0.heap a, k ∈ ownKeys world0.heap b →
          k ∈ ownKeys world0.heap (.ref 2)) ∧
      [Value.ref 15, .ref 5, .ref 12].Perm [.ref 12, .ref 15, .ref 5] ∧
      ∃ st1 st2, compose 1 [.ref 15, .ref 5, .ref 12] world0 (.ref 2) =
          some (.ok (st1, .ref 2)) ∧
        compose 1 [.ref 12, .ref 15, .ref 5] world0 (.ref 2) = some (.ok (st2, .ref 2)) ∧
        (∀ k, getOwnPropertyDescriptor st1.heap (.ref 2) k =
          getOwnPropertyDescriptor st2.heap (.ref 2) k) ∧
        ∀ s ∈ [Value.ref 15, .ref 5, .ref 12], ∀ k d,
          getOwnPropertyDescriptor world0.heap (.ref 2) k = .ok none →
          getOwnPropertyDescriptor world0.heap s k = .ok (some d) →
          getOwnPropertyDescriptor st2.heap (.ref 2) k = .ok (some d) :=
  have hfun : ∀ s ∈ [Value.ref 15, .ref 5, .ref 12], typeOf world0.heap s = "function" := by
    intro s hs
    simp only [List.mem_cons, List.mem_singleton, List.mem_nil_iff, or_false] at hs
    rcases hs with rfl | rfl | rfl <;> rfl
  have hdisj : [Value.ref 15, .ref 5, .ref 12].Pairwise (fun a b =>
      ∀ k ∈ ownKeys world0.heap a, k ∈ ownKeys world0.heap b →
        k ∈ ownKeys world0.heap (.ref 2)) := by
    decide
  have hperm : [Value.ref 15, .ref 5, .ref 12].Perm [.ref 12, .ref 15, .ref 5] :=
    @List.perm_append_comm Value [.ref 15, .ref 5] [.ref 12]
  ⟨rfl, rfl, hfun, hdisj, hperm,
    disjoint_sources_commute 0 world0 (.ref 2) [.ref 15, .ref 5, .ref 12]
      [.ref 12, .ref 15, .ref 5] rfl rfl hfun hdisj hperm⟩

/-- C12, per-key failure isolation. For a function receiver and a function
source: (1) the loop of `addProperty` calls over any duplicate-free list of
keys never throws, a key whose definition on the receiver fails is left as it
was, and a key whose definition succeeds carries the source's descriptor
afterwards, whatever happens at the other keys; (2) one pairwise merge
returns the receiver, and at every composable key the same holds: no change
where the definition fails, the source's descriptor where it succeeds;
(3) `compose` over any list of sources returns the receiver, so no failure
stops the fold. -/
theorem per_key_failure_isolation (fuel : Nat) (st : State) (receiver source : Value)
    (keys : List Key) (sources : List Value)
    (hR : typeOf st.heap receiver = "function") (hS : typeOf st.heap source = "function")
    (hne : source ≠ receiver) (hnd : keys.Nodup) :
    (∃ st1, forEachAddProperty receiver source keys st = .ok st1 ∧
      ∀ k ∈ keys, ∀ desc, getOwnPropertyDescriptor st.heap source k = .ok desc →
        (∀ e, defineProperty st.heap receiver k desc = .error e →
          getOwnPropertyDescriptor st1.heap receiver k =
            getOwnPropertyDescriptor st.heap receiver k) ∧
        (∀ h1, defineProperty st.heap receiver k desc = .ok h1 →
          getOwnPropertyDescriptor st1.heap receiver k = .ok desc)) ∧
    (∃ st1, composeStatics (fuel + 1) st receiver source = some (.ok (st1, receiver)) ∧
      ∀ k d, getOwnPropertyDescriptor st.heap receiver k = .ok none →
        getOwnPropertyDescriptor st.heap source k = .ok (some d) →
        (∀ e, defineProperty st.heap receiver k (some d) = .error e →
          getOwnPropertyDescriptor st1.heap receiver k = .ok none) ∧
        (∀ h1, defineProperty st.heap receiver k (some d) = .ok h1 →
          getOwnPropertyDescriptor st1.heap receiver k = .ok (some d))) ∧
    (∃ st1, compose (fuel + 1) sources st receiver = some (.ok (st1, receiver))) := by
  obtain ⟨t, ot, rfl, ht, hc⟩ := (typeOf_function_iff st.heap receiver).mp hR
  obtain ⟨s, os, rfl, hs, hcs⟩ := (typeOf_function_iff st.heap source).mp hS
  have hst : s ≠ t := fun e => hne (by rw [e])
  refine ⟨?_, ?_, ?_⟩
  · obtain ⟨st1, hrun, hkeys⟩ := forEachAddProperty_isolated st t s ot os hst ht hs keys hnd
    refine ⟨st1, hrun, ?_⟩
    intro k hk desc hdesc
    rw [getOwnPropertyDescriptor_ref st.heap s os hs] at hdesc
    cases hdesc
    rw [getOwnPropertyDescriptor_ref st.heap t ot ht]
    exact hkeys k hk
  · obtain ⟨w1, hrun⟩ := composeStatics_function_target fuel st.heap st.warnings t ot ht hc
      (.ref s)
    refine ⟨_, hrun, ?_⟩
    intro k d htk hsk
    rw [getOwnPropertyDescriptor_ref st.heap t ot ht] at htk
    rw [getOwnPropertyDescriptor_ref st.heap s os hs] at hsk
    have hkt : getProp ot.props k = none := Except.ok.inj htk
    have hks : getProp os.props k = some d := Except.ok.inj hsk
    simp only [getOwnPropertyDescriptor_set st.heap t ot _ ht,
      mergeStep_function st.heap t s ot os hst hs hcs, mergeInto_getProp, hkt, hks,
      defineProperty, ht, validateAndApply_fresh ot k d hkt]
    cases he : ot.extensible <;> simp
  · obtain ⟨st1, hrun, _⟩ := compose_frame fuel sources st (.ref t)
    exact ⟨st1, hrun⟩

theorem per_key_failure_isolation_witness :
    (typeOf world20.heap (.ref 23) = "function" ∧ typeOf world20.heap (.ref 9) = "function" ∧
      Value.ref 9 ≠ Value.ref 23 ∧ [Key.str "prototype", Key.str "sourceMethod"].Nodup ∧
      defineProperty world20.heap (.ref 23) (.str "prototype")
        (some (.data (.ref 10) false false false)) = .error .typeError ∧
      (∃ h1, defineProperty world20.heap (.ref 23) (.str "sourceMethod")
        (some (method 12)) = .ok h1) ∧
      (∃ st1, forEachAddProperty (.ref 23) (.ref 9)
          [.str "prototype", .str "sourceMethod"] world20 = .ok st1 ∧
        getOwnPropertyDescriptor st1.heap (.ref 23) (.str "prototype") =
          .ok (some (.data (.ref 24) false false false)) ∧
        getOwnPropertyDescriptor st1.heap (.ref 23) (.str "sourceMethod") =
          .ok (some (method 12)))) ∧
    (typeOf world20.heap (.ref 29) = "function" ∧ isExtensible world20.heap (.ref 29) = false ∧
      defineProperty world20.heap (.ref 29) (.str "sourceMethod") (some (method 12)) =
        .error .typeError ∧
      ∃ st1, composeStatics 1 world20 (.ref 29) (.ref 9) = some (.ok (st1, .ref 29)) ∧
        getOwnPropertyDescriptor st1.heap (.ref 29) (.str "sourceMethod") = .ok none ∧
        ∃ st2, compose 1 [.ref 15, .ref 9] world20 (.ref 29) = some (.ok (st2, .ref 29))) :=
  have hA := per_key_failure_isolation 0 world20 (.ref 23) (.ref 9)
    [.str "prototype", .str "sourceMethod"] [] rfl rfl (by decide) (by decide)
  have hB := per_key_failure_isolation 0 world20 (.ref 29) (.ref 9) [] [.ref 15, .ref 9]
    rfl rfl (by decide) (by decide)
  ⟨⟨rfl, rfl, by decide, by decide, rfl, ⟨_, rfl⟩,
      hA.1.elim fun st1 h1 => ⟨st1, h1.1,
        ((h1.2 (.str "prototype") (by decide) _ rfl).1 .typeError rfl).trans rfl,
        (h1.2 (.str "sourceMethod") (by decide) _ rfl).2 _ rfl⟩⟩,
    ⟨rfl, rfl, rfl,
      hB.2.1.elim fun st1 h1 => ⟨st1, h1.1,
        (h1.2 (.str "sourceMethod") (method 12) rfl rfl).1 .typeError rfl, hB.2.2⟩⟩⟩

/-- C11, the execution context follows the target. For an extensible function
target and a function source, `compose [source]` copies the member `key`
(method or getter, running the function `f` whose body is `this.prop = v`)
onto the target: afterwards target and source own `key` with the same
descriptor, and the composition wrote to no other object. Then, in any heap
reached later:
(1) an invocation of any member through an entity leaves every other object as
it was;
(2) for every entity that owns the member: when the entity lacks `prop`, is
extensible, and the search for `prop` on its chain falls to the receiver (no
setter, no read-only property), the invocation through it adds `prop` with
value `v` to that entity; when the entity has `prop` as a writable data
property, the invocation changes its value on that entity; in both cases the
other members of the entity and all other objects are as before, and the same
conditions hold again for the next invocation;
(3) the sequence of the test-suite: when neither target nor source owned `prop`
before the composition, invoking through the source and then through the
target adds `prop` to the source only, then to the target, the source keeping
what the first invocation gave it; and likewise in the other order. -/
theorem execution_context_follows_target (code : Code) (fuel : Nat) (st : State)
    (target source : Value) (key prop : Key) (d : Descriptor) (f : Nat) (v : Value)
    (hT : typeOf st.heap target = "function") (hE : isExtensible st.heap target = true)
    (hS : typeOf st.heap source = "function")
    (htgt : getOwnPropertyDescriptor st.heap target key = .ok none)
    (hsrc : getOwnPropertyDescriptor st.heap source key = .ok (some d))
    (hd : d.invoked = .ref f) (hf : typeOf st.heap (.ref f) = "function")
    (hcode : code f = some ⟨prop, v⟩) :
    ∃ st1, compose (fuel + 1) [source] st target = some (.ok (st1, target)) ∧
      getOwnPropertyDescriptor st1.heap target key = .ok (some d) ∧
      getOwnPropertyDescriptor st1.heap source key = .ok (some d) ∧
      typeOf st1.heap (.ref f) = "function" ∧
      (∀ k d0, getOwnPropertyDescriptor st.heap target k = .ok (some d0) →
        getOwnPropertyDescriptor st1.heap target k = .ok (some d0)) ∧
      (∀ k, getOwnPropertyDescriptor st.heap target k = .ok none →
        getOwnPropertyDescriptor st1.heap target k =
          getOwnPropertyDescriptor st.heap source k) ∧
      (∀ a, Value.ref a ≠ target → st1.heap[a]? = st.heap[a]?) ∧
      (∀ h recv m k h2, invokeMember code m h recv k = some (.ok h2) →
        ∀ a, Value.ref a ≠ recv → h2[a]? = h[a]?) ∧
      (∀ h recv, getOwnPropertyDescriptor h recv key = .ok (some d) →
        typeOf h (.ref f) = "function" →
        (∀ n, fallsToReceiver n h recv prop = true →
          getOwnPropertyDescriptor h recv prop = .ok none → isExtensible h recv = true →
          ∃ h2, invokeMember code n h recv key = some (.ok h2) ∧
            getOwnPropertyDescriptor h2 recv prop = .ok (some (.data v true true true)) ∧
            (∀ k, k ≠ prop →
              getOwnPropertyDescriptor h2 recv k = getOwnPropertyDescriptor h recv k) ∧
            (∀ a, Value.ref a ≠ recv → h2[a]? = h[a]?) ∧
            (∀ x, typeOf h2 x = typeOf h x) ∧
            (∀ x, isExtensible h2 x = isExtensible h x) ∧
            ∀ n1 o, fallsToReceiver n1 h o prop = true →
              fallsToReceiver n1 h2 o prop = true) ∧
        (∀ v0 e c m, getOwnPropertyDescriptor h recv prop = .ok (some (.data v0 true e c)) →
          ∃ h2, invokeMember code (m + 1) h recv key = some (.ok h2) ∧
            getOwnPropertyDescriptor h2 recv prop = .ok (some (.data v true e c)) ∧
            (∀ k, k ≠ prop →
              getOwnPropertyDescriptor h2 recv k = getOwnPropertyDescriptor h recv k) ∧
            (∀ a, Value.ref a ≠ recv → h2[a]? = h[a]?) ∧
            (∀ x, typeOf h2 x = typeOf h x) ∧
            (∀ x, isExtensible h2 x = isExtensible h x) ∧
            ∀ n1 o, fallsToReceiver n1 h o prop = true →
              fallsToReceiver n1 h2 o prop = true)) ∧
      (∀ n, fallsToReceiver n st.heap source prop = true →
        fallsToReceiver n st.heap target prop = true →
        getOwnPropertyDescriptor st.heap source prop = .ok none →
        getOwnPropertyDescriptor st.heap target prop = .ok none →
        isExtensible st.heap source = true →
        (∃ h2 h3, invokeMember code n st1.heap source key = some (.ok h2) ∧
          getOwnPropertyDescriptor h2 source prop = .ok (some (.data v true true true)) ∧
          getOwnPropertyDescriptor h2 target prop = .ok none ∧
          invokeMember code n h2 target key = some (.ok h3) ∧
          getOwnPropertyDescriptor h3 target prop = .ok (some (.data v true true true)) ∧
          (∀ k, getOwnPropertyDescriptor h3 source k = getOwnPropertyDescriptor h2 source k) ∧
          (∀ k, k ≠ prop → getOwnPropertyDescriptor h2 source k =
            getOwnPropertyDescriptor st.heap source k) ∧
          (∀ k, getOwnPropertyDescriptor h2 target k =
            getOwnPropertyDescriptor st1.heap target k) ∧
          ∀ k, k ≠ prop → getOwnPropertyDescriptor h3 target k =
            getOwnPropertyDescriptor st1.heap target k) ∧
        ∃ h2 h3, invokeMember code n st1.heap target key = some (.ok h2) ∧
          getOwnPropertyDescriptor h2 target prop = .ok (some (.data v true true true)) ∧
          getOwnPropertyDescriptor h2 source prop = .ok none ∧
          invokeMember code n h2 source key = some (.ok h3) ∧
          getOwnPropertyDescriptor h3 source prop = .ok (some (.data v true true true)) ∧
          (∀ k, getOwnPropertyDescriptor h3 target k = getOwnPropertyDescriptor h2 target k) ∧
          (∀ k, k ≠ prop → getOwnPropertyDescriptor h2 target k =
            getOwnPropertyDescriptor st1.heap target k) ∧
          (∀ k, getOwnPropertyDescriptor h2 source k =
            getOwnPropertyDescriptor st.heap source k) ∧
          ∀ k, k ≠ prop → getOwnPropertyDescriptor h3 source k =
            getOwnPropertyDescriptor st.heap source k) := by
  obtain ⟨t, ot, rfl, ht, hc⟩ := (typeOf_function_iff st.heap target).mp hT
  obtain ⟨s, os, rfl, hs, hcs⟩ := (typeOf_function_iff st.heap source).mp hS
  have hkt : getProp ot.props key = none := by
    rw [getOwnPropertyDescriptor_ref st.heap t ot ht] at htgt
    exact Except.ok.inj htgt
  have hks : getProp os.props key = some d := by
    rw [getOwnPropertyDescriptor_ref st.heap s os hs] at hsrc
    exact Except.ok.inj hsrc
  have hst : s ≠ t := by
    intro e
    subst e
    rw [ht] at hs
    cases hs
    rw [hkt] at hks
    cases hks
  have hts : t ≠ s := fun e => hst e.symm
  have hneV : Value.ref s ≠ Value.ref t := fun e => hst (Value.ref.inj e)
  have hext : ot.extensible = true := by simpa [isExtensible, ht] using hE
  obtain ⟨w1, hrun⟩ := compose_function_target fuel st.heap t ot ht hc [.ref s] st.warnings
  have ht1 : (st.heap.set t (mergeAll st.heap t [.ref s] ot))[t]? =
      some (mergeAll st.heap t [.ref s] ot) := getElem?_set_same st.heap t ot _ ht
  have hs1 : (st.heap.set t (mergeAll st.heap t [.ref s] ot))[s]? = st.heap[s]? :=
    List.getElem?_set_ne hts
  -- the member map of the target after the composition
  have hkept : ∀ k d0, getOwnPropertyDescriptor st.heap (.ref t) k = .ok (some d0) →
      getOwnPropertyDescriptor (st.heap.set t (mergeAll st.heap t [.ref s] ot)) (.ref t) k =
        .ok (some d0) := by
    intro k d0 hk
    rw [getOwnPropertyDescriptor_ref st.heap t ot ht] at hk
    rw [getOwnPropertyDescriptor_set st.heap t ot _ ht,
      mergeAll_getProp_some st.heap t [.ref s] ot k d0 (Except.ok.inj hk)]
  have hcopied : ∀ k, getOwnPropertyDescriptor st.heap (.ref t) k = .ok none →
      getOwnPropertyDescriptor (st.heap.set t (mergeAll st.heap t [.ref s] ot)) (.ref t) k =
        getOwnPropertyDescriptor st.heap (.ref s) k := by
    intro k hk
    rw [getOwnPropertyDescriptor_ref st.heap t ot ht] at hk
    rw [getOwnPropertyDescriptor_set st.heap t ot _ ht,
      getOwnPropertyDescriptor_ref st.heap s os hs, mergeAll_cons]
    exact congrArg Except.ok
      (mergeStep_getProp_copy st.heap t s ot os k hst hs hcs (Except.ok.inj hk) hext)
  have hsrcSame : ∀ k,
      getOwnPropertyDescriptor (st.heap.set t (mergeAll st.heap t [.ref s] ot)) (.ref s) k =
        getOwnPropertyDescriptor st.heap (.ref s) k :=
    fun k => getOwnPropertyDescriptor_congr st.heap _ s hs1 k
  have htype : ∀ x, typeOf (st.heap.set t (mergeAll st.heap t [.ref s] ot)) x =
      typeOf st.heap x :=
    fun x => typeOf_set st.heap t ot _ ht (mergeAll_callable st.heap t [.ref s] ot) x
  have hextS : ∀ x, isExtensible (st.heap.set t (mergeAll st.heap t [.ref s] ot)) x =
      isExtensible st.heap x :=
    fun x => isExtensible_set st.heap t ot _ ht (mergeAll_extensible st.heap t [.ref s] ot) x
  have hO1k := (hcopied key htgt).trans hsrc
  have hf1 := (htype (.ref f)).trans hf
  refine ⟨_, hrun, hO1k, (hsrcSame key).trans hsrc, hf1, hkept, hcopied, ?_, ?_, ?_, ?_⟩
  · intro a ha
    have hne : t ≠ a := fun e => ha (by rw [e])
    exact List.getElem?_set_ne hne
  · intro h recv m k h2 hinv a ha
    exact invokeMember_frame code m h recv k h2 hinv a ha
  · intro h recv hown hfun
    constructor
    · intro n hfall hp he
      exact invoke_adds_observed code n h recv key d f prop v hown hd hfun hcode hfall hp he
    · intro v0 e c m hp
      exact invoke_updates_observed code m h recv key d f prop v v0 e c hown hd hfun hcode hp
  · intro n hfallS hfallT hpS hpT hES
    have hpT1 := (hcopied prop hpT).trans hpS
    have hpS1 := (hsrcSame prop).trans hpS
    have hsame : getProp (mergeAll st.heap t [.ref s] ot).props prop = getProp ot.props prop := by
      rw [getOwnPropertyDescriptor_set st.heap t ot _ ht] at hpT1
      rw [getOwnPropertyDescriptor_ref st.heap t ot ht] at hpT
      rw [Except.ok.inj hpT1, Except.ok.inj hpT]
    have hfall1 : ∀ o, fallsToReceiver n st.heap o prop = true →
        fallsToReceiver n (st.heap.set t (mergeAll st.heap t [.ref s] ot)) o prop = true :=
      fun o ho => fallsToReceiver_set st.heap t ot _ prop ht
        (mergeAll_proto st.heap t [.ref s] ot) (Or.inl hsame) n o ho
    constructor
    · obtain ⟨h2, h3, r1, r2, r3, r4, r5, r6, r7, r8, r9⟩ :=
        invoke_in_turn code n _ (.ref s) (.ref t) key d f prop v hneV
          ((hsrcSame key).trans hsrc) hO1k hd hf1 hcode (hfall1 _ hfallS) (hfall1 _ hfallT)
          hpS1 hpT1 ((hextS _).trans hES) ((hextS _).trans hE)
      exact ⟨h2, h3, r1, r2, r3, r4, r5, r6,
        fun k hk => (r7 k hk).trans (hsrcSame k), r8, r9⟩
    · obtain ⟨h2, h3, r1, r2, r3, r4, r5, r6, r7, r8, r9⟩ :=
        invoke_in_turn code n _ (.ref t) (.ref s) key d f prop v (fun e => hneV e.symm)
          hO1k ((hsrcSame key).trans hsrc) hd hf1 hcode (hfall1 _ hfallT) (hfall1 _ hfallS)
          hpT1 hpS1 ((hextS _).trans hE) ((hextS _).trans hES)
      exact ⟨h2, h3, r1, r2, r3, r4, r5, r6, r7,
        fun k => (r8 k).trans (hsrcSame k),
        fun k hk => (r9 k hk).trans (hsrcSame k)⟩

theorem execution_context_follows_target_witness :
    typeOf world30.heap (.ref 2) = "function" ∧ isExtensible world30.heap (.ref 2) = true ∧
      typeOf world30.heap (.ref 30) = "function" ∧
      getOwnPropertyDescriptor world30.heap (.ref 2) (.str "setComposedProps") = .ok none ∧
      getOwnPropertyDescriptor world30.heap (.ref 30) (.str "setComposedProps") =
        .ok (some (method 32)) ∧
      (method 32).invoked = .ref 32 ∧ typeOf world30.heap (.ref 32) = "function" ∧
      testCode 32 = some ⟨.str "composedProp", .str "abc"⟩ ∧
      fallsToReceiver 3 world30.heap (.ref 30) (.str "composedProp") = true ∧
      fallsToReceiver 3 world30.heap (.ref 2) (.str "composedProp") = true ∧
      getOwnPropertyDescriptor world30.heap (.ref 30) (.str "composedProp") = .ok none ∧
      getOwnPropertyDescriptor world30.heap (.ref 2) (.str "composedProp") = .ok none ∧
      isExtensible world30.heap (.ref 30) = true ∧
      (∃ st1, compose 1 [.ref 30] world30 (.ref 2) = some (.ok (st1, .ref 2)) ∧
        getOwnPropertyDescriptor st1.heap (.ref 2) (.str "setComposedProps") =
          .ok (some (method 32)) ∧
        ∃ h2 h3, invokeMember testCode 3 st1.heap (.ref 30) (.str "setComposedProps") =
            some (.ok h2) ∧
          getOwnPropertyDescriptor h2 (.ref 30) (.str "composedProp") =
            .ok (some (.data (.str "abc") true true true)) ∧
          getOwnPropertyDescriptor h2 (.ref 2) (.str "composedProp") = .ok none ∧
          invokeMember testCode 3 h2 (.ref 2) (.str "setComposedProps") = some (.ok h3) ∧
          getOwnPropertyDescriptor h3 (.ref 2) (.str "composedProp") =
            .ok (some (.data (.str "abc") true true true)) ∧
          getOwnPropertyDescriptor h3 (.ref 30) (.str "composedProp") =
            .ok (some (.data (.str "abc") true true true))) ∧
      getOwnPropertyDescriptor world30.heap (.ref 2) (.str "resetCounter") = .ok none ∧
      getOwnPropertyDescriptor world30.heap (.ref 30) (.str "resetCounter") =
        .ok (some (method 33)) ∧
      (method 33).invoked = .ref 33 ∧ typeOf world30.heap (.ref 33) = "function" ∧
      testCode 33 = some ⟨.str "counter", .num 5⟩ ∧
      getOwnPropertyDescriptor world30.heap (.ref 2) (.str "counter") = .ok none ∧
      getOwnPropertyDescriptor world30.heap (.ref 30) (.str "counter") =
        .ok (some (.data (.num 0) true true true)) ∧
      ∃ st1, compose 1 [.ref 30] world30 (.ref 2) = some (.ok (st1, .ref 2)) ∧
        getOwnPropertyDescriptor st1.heap (.ref 2) (.str "counter") =
          .ok (some (.data (.num 0) true true true)) ∧
        ∃ h2, invokeMember testCode 1 st1.heap (.ref 2) (.str "resetCounter") =
            some (.ok h2) ∧
          getOwnPropertyDescriptor h2 (.ref 2) (.str "counter") =
            .ok (some (.data (.num 5) true true true)) ∧
          getOwnPropertyDescriptor h2 (.ref 30) (.str "counter") =
            .ok (some (.data (.num 0) true true true)) := by
  have hA := execution_context_follows_target testCode 0 world30 (.ref 2) (.ref 30)
    (.str "setComposedProps") (.str "composedProp") (method 32) 32 (.str "abc")
    rfl rfl rfl rfl rfl rfl rfl rfl
  have hB := execution_context_follows_target testCode 0 world30 (.ref 2) (.ref 30)
    (.str "resetCounter") (.str "counter") (method 33) 33 (.num 5)
    rfl rfl rfl rfl rfl rfl rfl rfl
  refine ⟨rfl, rfl, rfl, rfl, rfl, rfl, rfl, rfl, rfl, rfl, rfl, rfl, rfl, ?_,
    rfl, rfl, rfl, rfl, rfl, rfl, rfl, ?_⟩
  · obtain ⟨st1, hrun, hk, _, _, _, _, _, _, _, hseq⟩ := hA
    obtain ⟨h2, h3, r1, r2, r3, r4, r5, r6, _⟩ := (hseq 3 rfl rfl rfl rfl rfl).1
    exact ⟨st1, hrun, hk, h2, h3, r1, r2, r3, r4, r5, (r6 _).trans r2⟩
  · obtain ⟨st1, hrun, hk, _, hfun, _, hcopied, hothers, _, hlaw, _⟩ := hB
    have hp : getOwnPropertyDescriptor st1.heap (.ref 2) (.str "counter") =
        .ok (some (.data (.num 0) true true true)) := (hcopied (.str "counter") rfl).trans rfl
    obtain ⟨h2, hinv, hnew, _, hframe, _⟩ :=
      (hlaw st1.heap (.ref 2) hk hfun).2 (.num 0) true true 0 hp
    refine ⟨st1, hrun, hp, h2, hinv, hnew, ?_⟩
    rw [getOwnPropertyDescriptor_congr st1.heap h2 30 (hframe 30 (by decide)),
      getOwnPropertyDescriptor_congr world30.heap st1.heap 30 (hothers 30 (by decide))]
    rfl

end Compose
